import Mathlib

/-!
Shallow embedding of the TSP dynamic-programming solver from `src/main.rs`
(struct `TSPSolver` with methods `new`, `solve`, `tsp_dp`, `reconstruct_path`).

Modelling conventions:
* `i32` values are embedded as `Int`; the sentinel `INF = i32::MAX / 2`.
  Where overflow matters (claim C7) we reason explicitly about the i32 range.
* `HashMap<(usize, usize), i32>` is embedded as an association list `Memo`;
  `dpGet` models `HashMap::get`.  `tsp_dp` only ever inserts keys that are
  absent (proved below), so consing models `HashMap::insert` faithfully.
* The recursion of `tsp_dp` and the `while` loop of `reconstruct_path` are
  given a fuel parameter so that the definitions are structurally recursive
  and computable.  Rust's `tsp_dp` recursion always terminates with depth at
  most the number of unvisited cities plus one, so fuel `n` (as used in
  `solveRun`) is always sufficient for the reachable calls; the `while` loop
  of `reconstruct_path` genuinely may not terminate (see the claim about
  infeasible instances), which the fuel version reports as `none`.
* The third component returned by `tsp_dp` is a trace of the states on which
  the recurrence body ran (as opposed to a memo hit or the base case).  It is
  proof instrumentation mirroring the source's progress accounting; it does
  not influence the computed values or memo contents.
* The progress-bar fields and `computed_states` counter of the Rust struct
  are purely observational I/O instrumentation and are omitted.
-/

namespace TSPDP

/-- Sentinel "infinity": `const INF: i32 = i32::MAX / 2` in the source. -/
def INF : Int := 1073741823

/-- Memo table: models `HashMap<(usize, usize), i32>` as an association list. -/
abbrev Memo := List ((Nat × Nat) × Int)

/-- Models `HashMap::get` on the memo table (first matching key wins). -/
def dpGet (dp : Memo) (k : Nat × Nat) : Option Int :=
  match dp with
  | [] => none
  | (k1, v) :: rest => if k = k1 then some v else dpGet rest k

/-- Keys currently present in the memo table. -/
def keys (dp : Memo) : List (Nat × Nat) := dp.map Prod.fst

/-- Matrix entry `self.dist[i][j]`.  Out-of-range reads default to `0`
(the Rust code would panic there; no theorem below depends on an
out-of-range read). -/
def entry (dist : List (List Int)) (i j : Nat) : Int :=
  (dist.getD i []).getD j 0

/-- The solver struct.  `progress_bar` and `computed_states` are omitted
(observational progress instrumentation only). -/
structure TSPSolver where
  n : Nat
  dist : List (List Int)
  dp : Memo
  total_states : Nat

/-- Models `TSPSolver::new`: no validation of any kind is performed. -/
def TSPSolver.new (distances : List (List Int)) : TSPSolver :=
  { n := distances.length
    dist := distances
    dp := []
    total_states := distances.length * 2 ^ distances.length }

/-- Cities `c < n` whose bit is not set in `mask`
(`mask & (1 << c) == 0` is `mask.testBit c = false`). -/
def unvisited (n mask : Nat) : List Nat :=
  (List.range n).filter (fun c => !(mask.testBit c))

/-- Number of unvisited cities; the recursion depth measure of `tsp_dp`. -/
def uncount (n mask : Nat) : Nat := (unvisited n mask).length

/-- The pure minimisation loop of the recurrence: folds
`ans = ans.min(dist[pos][c] + value(mask | 1 << c, c))` over the city list,
skipping visited cities. -/
def minOver (dist : List (List Int)) (mask pos : Nat) (value : Nat → Nat → Int) :
    List Nat → Int → Int
  | [], ans => ans
  | c :: cs, ans =>
      if mask.testBit c then minOver dist mask pos value cs ans
      else minOver dist mask pos value cs
        (min ans (entry dist pos c + value (mask ||| 2 ^ c) c))

/-- The memo-free value of a DP state `(mask, pos)`: the mathematical content
of `TSPSolver::tsp_dp` (same base case, same recurrence, no memo table).
Out of fuel returns `INF`; fuel `uncount n mask + 1` always suffices. -/
def tspCost (n : Nat) (dist : List (List Int)) : Nat → Nat → Nat → Int
  | 0, _, _ => INF
  | fuel + 1, mask, pos =>
      if mask = 2 ^ n - 1 then entry dist pos 0
      else minOver dist mask pos (fun m p => tspCost n dist fuel m p) (List.range n) INF

/-- Canonical state cost, with the fuel that is always sufficient. -/
def cost (n : Nat) (dist : List (List Int)) (mask pos : Nat) : Int :=
  tspCost n dist (uncount n mask + 1) mask pos

/-- The inner `for city in 0..n` loop of `tsp_dp`, threading the memo table
and the evaluation trace through the recursive calls (`step` is the recursive
reference to `tsp_dp` at the smaller fuel). -/
def tspLoopAux (dist : List (List Int)) (mask pos : Nat)
    (step : Nat → Nat → Memo → Int × Memo × List (Nat × Nat)) :
    List Nat → Int → Memo → Int × Memo × List (Nat × Nat)
  | [], ans, dp => (ans, dp, [])
  | c :: cs, ans, dp =>
      if mask.testBit c then tspLoopAux dist mask pos step cs ans dp
      else
        let r1 := step (mask ||| 2 ^ c) c dp
        let r2 := tspLoopAux dist mask pos step cs
          (min ans (entry dist pos c + r1.1)) r1.2.1
        (r2.1, r2.2.1, r1.2.2 ++ r2.2.2)

/-- Models `TSPSolver::tsp_dp` (lines 62-95): base case when every city is visited,
then memo lookup, then the recurrence over unvisited cities followed by the
insert.  Returns (value, new memo, trace of recurrence evaluations). -/
def tsp_dp (n : Nat) (dist : List (List Int)) :
    Nat → Nat → Nat → Memo → Int × Memo × List (Nat × Nat)
  | 0, _, _, dp => (INF, dp, [])
  | fuel + 1, mask, pos, dp =>
      if mask = 2 ^ n - 1 then (entry dist pos 0, dp, [])
      else
        match dpGet dp (mask, pos) with
        | some v => (v, dp, [])
        | none =>
            let r := tspLoopAux dist mask pos
              (fun m p d => tsp_dp n dist fuel m p d) (List.range n) INF dp
            (r.1, ((mask, pos), r.1) :: r.2.1, (mask, pos) :: r.2.2)

/-- The inner `for city in 0..n` scan of `reconstruct_path` (lines 108-126):
looks the candidate state up in the memo, falls back to `tsp_dp` (with the
always-sufficient fuel `n`) when absent, and keeps the strictly improving
candidate (`if cost < min_cost`).  Returns
(next_city, min_cost, memo, trace). -/
def selectLoop (n : Nat) (dist : List (List Int)) (mask pos : Nat) :
    List Nat → Nat → Int → Memo → Nat × Int × Memo × List (Nat × Nat)
  | [], best, bestCost, dp => (best, bestCost, dp, [])
  | c :: cs, best, bestCost, dp =>
      if mask.testBit c then selectLoop n dist mask pos cs best bestCost dp
      else
        let rv : Int × Memo × List (Nat × Nat) :=
          match dpGet dp (mask ||| 2 ^ c, c) with
          | some v => (v, dp, [])
          | none => tsp_dp n dist n (mask ||| 2 ^ c) c dp
        let cand := entry dist pos c + rv.1
        let r :=
          if cand < bestCost then selectLoop n dist mask pos cs c cand rv.2.1
          else selectLoop n dist mask pos cs best bestCost rv.2.1
        (r.1, r.2.1, r.2.2.1, rv.2.2 ++ r.2.2.2)

/-- The `while mask != (1 << n) - 1` loop of `reconstruct_path` (lines
104-131), fuelled: each iteration selects the next city with the initial
accumulator `next_city = 0`, `min_cost = INF`, pushes it, and extends the
mask.  `none` models non-termination of the Rust loop. -/
def reconstruct_go (n : Nat) (dist : List (List Int)) :
    Nat → Nat → Nat → List Nat → Memo → Option (List Nat) × Memo × List (Nat × Nat)
  | 0, _, _, _, dp => (none, dp, [])
  | fuel + 1, mask, pos, path, dp =>
      if mask = 2 ^ n - 1 then (some (path ++ [0]), dp, [])
      else
        let s := selectLoop n dist mask pos (List.range n) 0 INF dp
        let r := reconstruct_go n dist fuel (mask ||| 2 ^ s.1) s.1 (path ++ [s.1]) s.2.2.1
        (r.1, r.2.1, s.2.2.2 ++ r.2.2)

/-- Models `TSPSolver::reconstruct_path` (lines 97-135): starts from
`mask = 1`, `pos = 0`, `path = [0]`.  Fuel `2 * n` reproduces every
terminating run of the Rust `while` loop: the loop grows `mask` at most
`n - 1` times, and between two growth iterations at most one iteration can
leave `mask` unchanged (such an iteration resets `pos` to `0` and pushes
`0`; a second consecutive one would repeat the state `(mask, 0)` verbatim,
so the Rust loop would never terminate).  Hence a Rust run that terminates
takes fewer than `2 * n` iterations, and `none` here models a run on which
the Rust loop never terminates. -/
def reconstruct_path (n : Nat) (dist : List (List Int)) (dp : Memo) :
    Option (List Nat) × Memo × List (Nat × Nat) :=
  reconstruct_go n dist (2 * n) 1 0 [0] dp

/-- Models `TSPSolver::solve` (lines 39-60) together with its internal state:
result, final memo table, and the combined recurrence-evaluation trace. -/
def solveRun (s : TSPSolver) : (Int × Option (List Nat)) × Memo × List (Nat × Nat) :=
  if s.n ≤ 1 then ((0, some [0]), s.dp, [])
  else
    let f := tsp_dp s.n s.dist s.n 1 0 s.dp
    let r := reconstruct_path s.n s.dist f.2.1
    ((f.1, r.1), r.2.1, f.2.2 ++ r.2.2)

/-- Models `TSPSolver::solve`: the pair `(min_cost, path)` the Rust method returns.
`none` as the path component models a run on which the reconstruction loop
never terminates. -/
def TSPSolver.solve (s : TSPSolver) : Int × Option (List Nat) := (solveRun s).1

/-! Specification-side definitions (the brute-force view of the claims). -/

/-- Cost of travelling from `pos` through the listed cities in order and
finally back to city 0. -/
def pathCost (dist : List (List Int)) : Nat → List Nat → Int
  | pos, [] => entry dist pos 0
  | pos, c :: cs => entry dist pos c + pathCost dist c cs

/-- Sum of the matrix's edge costs along consecutive elements of a route. -/
def routeCost (dist : List (List Int)) : List Nat → Int
  | a :: b :: rest => entry dist a b + routeCost dist (b :: rest)
  | _ => 0

/-- All Hamiltonian cycles anchored at city 0, represented by the visiting
order of cities `1, ..., n-1` (structural permutation enumeration, so the
list is computable by evaluation). -/
def tours (n : Nat) : List (List Nat) := ((List.range n).drop 1).permutations'

/-- Total edge cost of the cycle `0 → t₀ → ... → t_{k} → 0`. -/
def tourCost (dist : List (List Int)) (t : List Nat) : Int :=
  routeCost dist (0 :: (t ++ [0]))

/-- Invariant of the memo table: keys are distinct, in range, and every
stored value is the true cost of its state. -/
def GoodMemo (n : Nat) (dist : List (List Int)) (dp : Memo) : Prop :=
  (keys dp).Nodup ∧
  ∀ e ∈ dp, e.1.1 < 2 ^ n ∧ e.1.2 < n ∧ e.2 = cost n dist e.1.1 e.1.2

/-- Bitwise subset relation on visited-set masks. -/
def submask (a b : Nat) : Prop := ∀ j, a.testBit j = true → b.testBit j = true

/-- The concrete scenario matrix of the spec. -/
def M4 : List (List Int) :=
  [[0, 10, 15, 20], [10, 0, 35, 25], [15, 35, 0, 30], [20, 25, 30, 0]]

/-- An infeasible two-city instance: both off-diagonal edges are the
sentinel, so city 1 is isolated and no finite-cost tour exists. -/
def M2 : List (List Int) := [[0, 1073741823], [1073741823, 0]]

/-- The memo table produced by the forward pass of `solve` on `M2`. -/
def dpF2 : Memo := [((1, 0), 1073741823)]

/-- A two-city matrix of non-negative finite (non-sentinel) costs whose
single tour costs `2 * (INF - 1)`, above the sentinel. -/
def MB : List (List Int) := [[0, 1073741822], [1073741822, 0]]

/-- A matrix holding `i32::MAX` entries: adding such an entry to any
positive subproblem cost overflows `i32`. -/
def MX : List (List Int) := [[0, 2147483647], [2147483647, 0]]

/-- A three-city matrix with one large negative edge.  It is square and
admits the finite-cost tour `0 → 2 → 1 → 0` (cost 105), yet `solve`
returns the malformed path `[0, 1, 0, 2, 0]` whose edge sum differs from
the returned cost. -/
def M3neg : List (List Int) :=
  [[0, -1073741719, 100], [3, 0, 1073741823], [10, 2, 0]]

/-- A three-city instance with every off-diagonal edge at the sentinel:
during reconstruction both unvisited cities tie at the minimal candidate
value, and the scan selects neither. -/
def MINF3 : List (List Int) :=
  [[0, 1073741823, 1073741823], [1073741823, 0, 1073741823],
   [1073741823, 1073741823, 0]]

/-- The memo table produced by the forward pass of `solve` on `MINF3`. -/
def dpF3 : Memo :=
  [((1, 0), 1073741823), ((5, 2), 1073741823), ((3, 1), 1073741823)]

/-- The memo table produced by the forward pass of `solve` on `M4`. -/
def dpM4 : Memo := (tsp_dp 4 M4 4 1 0 []).2.1

/-- Postcondition of one `tsp_dp` call on state `(mask, pos)` with input
memo `dp`: the returned value is the true state cost, the memo invariant is
preserved, existing entries are untouched (write-once), and the evaluation
trace consists of exactly the freshly inserted keys, each a superset-mask
state. -/
def DPPost (n : Nat) (dist : List (List Int)) (mask pos : Nat) (dp : Memo)
    (r : Int × Memo × List (Nat × Nat)) : Prop :=
  r.1 = cost n dist mask pos ∧
  GoodMemo n dist r.2.1 ∧
  (∀ k ∈ keys dp, dpGet r.2.1 k = dpGet dp k) ∧
  (∀ k ∈ keys dp, k ∈ keys r.2.1) ∧
  r.2.2.Nodup ∧
  (∀ k ∈ r.2.2, k ∉ keys dp ∧ k ∈ keys r.2.1 ∧ submask mask k.1 ∧
    k.1 < 2 ^ n ∧ k.2 < n) ∧
  (∀ k ∈ keys r.2.1, k ∈ keys dp ∨ k ∈ r.2.2)

/-- Postcondition of the inner city loop of `tsp_dp`. -/
def LoopPost (n : Nat) (dist : List (List Int)) (mask pos : Nat) (cs : List Nat)
    (ans : Int) (dp : Memo) (r : Int × Memo × List (Nat × Nat)) : Prop :=
  r.1 = minOver dist mask pos (cost n dist) cs ans ∧
  GoodMemo n dist r.2.1 ∧
  (∀ k ∈ keys dp, dpGet r.2.1 k = dpGet dp k) ∧
  (∀ k ∈ keys dp, k ∈ keys r.2.1) ∧
  r.2.2.Nodup ∧
  (∀ k ∈ r.2.2, k ∉ keys dp ∧ k ∈ keys r.2.1 ∧ submask mask k.1 ∧
    k.1 ≠ mask ∧ k.1 < 2 ^ n ∧ k.2 < n) ∧
  (∀ k ∈ keys r.2.1, k ∈ keys dp ∨ k ∈ r.2.2)

/-- Postcondition of the reconstruction scan over remaining cities `cs`. -/
def SelectPost (n : Nat) (dist : List (List Int)) (mask pos : Nat) (cs : List Nat)
    (best : Nat) (bestCost : Int) (dp : Memo)
    (r : Nat × Int × Memo × List (Nat × Nat)) : Prop :=
  r.2.1 = minOver dist mask pos (cost n dist) cs bestCost ∧
  GoodMemo n dist r.2.2.1 ∧
  (∀ k ∈ keys dp, dpGet r.2.2.1 k = dpGet dp k) ∧
  (∀ k ∈ keys dp, k ∈ keys r.2.2.1) ∧
  r.2.2.2.Nodup ∧
  (∀ k ∈ r.2.2.2, k ∉ keys dp ∧ k ∈ keys r.2.2.1) ∧
  (∀ k ∈ keys r.2.2.1, k ∈ keys dp ∨ k ∈ r.2.2.2) ∧
  ((r.2.1 = bestCost ∧ r.1 = best) ∨
    (r.2.1 < bestCost ∧ r.1 ∈ cs ∧ mask.testBit r.1 = false ∧
      entry dist pos r.1 + cost n dist (mask ||| 2 ^ r.1) r.1 = r.2.1 ∧
      ∀ c ∈ cs, mask.testBit c = false →
        entry dist pos c + cost n dist (mask ||| 2 ^ c) c = r.2.1 → r.1 ≤ c))

/-- Memo/trace postcondition of the reconstruction loop. -/
def WalkPost (n : Nat) (dist : List (List Int)) (dp : Memo)
    (r : Option (List Nat) × Memo × List (Nat × Nat)) : Prop :=
  GoodMemo n dist r.2.1 ∧
  (∀ k ∈ keys dp, dpGet r.2.1 k = dpGet dp k) ∧
  (∀ k ∈ keys dp, k ∈ keys r.2.1) ∧
  r.2.2.Nodup ∧
  (∀ k ∈ r.2.2, k ∉ keys dp ∧ k ∈ keys r.2.1) ∧
  (∀ k ∈ keys r.2.1, k ∈ keys dp ∨ k ∈ r.2.2)

/-! Basic facts about bit masks and the unvisited-city list. -/

theorem testBit_or_pow (mask c j : Nat) :
    (mask ||| 2 ^ c).testBit j = (mask.testBit j || decide (j = c)) := by
  rw [Nat.testBit_or, Nat.testBit_two_pow]
  by_cases h : c = j <;> simp [h, eq_comm]

theorem mem_unvisited {n mask c : Nat} :
    c ∈ unvisited n mask ↔ c < n ∧ mask.testBit c = false := by
  simp [unvisited, List.mem_filter, List.mem_range]

theorem unvisited_nodup (n mask : Nat) : (unvisited n mask).Nodup :=
  (List.nodup_range n).filter _

theorem unvisited_or {n mask c : Nat} (hc : c < n) (hb : mask.testBit c = false) :
    unvisited n (mask ||| 2 ^ c) = (unvisited n mask).erase c := by
  rw [(unvisited_nodup n mask).erase_eq_filter, unvisited, unvisited, List.filter_filter]
  apply List.filter_congr
  intro x _
  by_cases hxc : x = c
  · subst hxc; simp [Nat.testBit_or]
  · have hcx : ¬(c = x) := fun h => hxc h.symm
    simp [Nat.testBit_or, Nat.testBit_two_pow, hcx, hxc, Bool.and_comm]

theorem uncount_or {n mask c : Nat} (hc : c < n) (hb : mask.testBit c = false) :
    uncount n (mask ||| 2 ^ c) + 1 = uncount n mask := by
  have hmem : c ∈ unvisited n mask := mem_unvisited.mpr ⟨hc, hb⟩
  have hpos : 0 < (unvisited n mask).length := List.length_pos.mpr (by
    intro hnil; rw [hnil] at hmem; exact List.not_mem_nil c hmem)
  simp only [uncount, unvisited_or hc hb, List.length_erase_of_mem hmem]
  omega

theorem eq_full_of_unvisited_nil {n mask : Nat} (hlt : mask < 2 ^ n)
    (h : unvisited n mask = []) : mask = 2 ^ n - 1 := by
  apply Nat.eq_of_testBit_eq
  intro i
  rw [Nat.testBit_two_pow_sub_one]
  by_cases hi : i < n
  · rw [decide_eq_true hi]
    by_contra hbit
    have : i ∈ unvisited n mask :=
      mem_unvisited.mpr ⟨hi, by simpa using hbit⟩
    rw [h] at this
    exact List.not_mem_nil i this
  · rw [decide_eq_false hi]
    exact Nat.testBit_lt_two_pow
      (lt_of_lt_of_le hlt (Nat.pow_le_pow_right (by norm_num) (le_of_not_lt hi)))

theorem unvisited_full (n : Nat) : unvisited n (2 ^ n - 1) = [] := by
  rw [unvisited, List.filter_eq_nil_iff]
  intro c hc
  rw [List.mem_range] at hc
  simp [Nat.testBit_two_pow_sub_one, hc]

theorem uncount_eq_zero_iff {n mask : Nat} (hlt : mask < 2 ^ n) :
    uncount n mask = 0 ↔ mask = 2 ^ n - 1 := by
  constructor
  · intro h
    exact eq_full_of_unvisited_nil hlt (List.length_eq_zero.mp h)
  · intro h
    rw [uncount, h, unvisited_full]
    rfl

theorem or_pow_lt {n mask c : Nat} (hlt : mask < 2 ^ n) (hc : c < n) :
    mask ||| 2 ^ c < 2 ^ n :=
  Nat.or_lt_two_pow hlt (Nat.pow_lt_pow_right (by norm_num) hc)

theorem testBit_or_pow_self_of (mask c : Nat) : (mask ||| 2 ^ c).testBit c = true := by
  simp [testBit_or_pow]

theorem testBit_or_pow_mono {mask c j : Nat} (h : mask.testBit j = true) :
    (mask ||| 2 ^ c).testBit j = true := by
  simp [testBit_or_pow, h]

theorem testBit_one (c : Nat) : (1 : Nat).testBit c = decide (0 = c) := by
  have h : (1 : Nat) = 2 ^ 0 := by norm_num
  rw [h, Nat.testBit_two_pow]

theorem unvisited_one (n : Nat) : unvisited n 1 = (List.range n).drop 1 := by
  cases n with
  | zero => rfl
  | succ m =>
      rw [unvisited, List.range_succ_eq_map]
      rw [show List.drop 1 (0 :: List.map Nat.succ (List.range m)) =
        List.map Nat.succ (List.range m) from rfl]
      have h1 : List.filter (fun c => !((1 : Nat).testBit c))
          (0 :: List.map Nat.succ (List.range m)) =
          List.filter (fun c => !((1 : Nat).testBit c)) (List.map Nat.succ (List.range m)) := by
        rw [List.filter_cons]
        norm_num [testBit_one]
      rw [h1]
      apply List.filter_eq_self.mpr
      intro a ha
      rcases List.mem_map.mp ha with ⟨k, _, hk⟩
      subst hk
      simp [testBit_one]

theorem uncount_one (n : Nat) : uncount n 1 = n - 1 := by
  rw [uncount, unvisited_one, List.length_drop, List.length_range]

theorem uncount_lt_of_bit0 {n mask : Nat} (hn : 0 < n)
    (h0 : mask.testBit 0 = true) : uncount n mask < n := by
  have hsub : (unvisited n mask).Sublist (List.range n) := List.filter_sublist _
  have hle : uncount n mask ≤ n := by
    simpa [uncount, List.length_range] using hsub.length_le
  rcases lt_or_eq_of_le hle with h | h
  · exact h
  · exfalso
    have heq : unvisited n mask = List.range n :=
      hsub.eq_of_length (by simpa [uncount, List.length_range] using h)
    have : (0 : Nat) ∈ unvisited n mask := by
      rw [heq]; exact List.mem_range.mpr hn
    rw [mem_unvisited] at this
    rw [this.2] at h0
    exact Bool.false_ne_true h0

/-! Facts about the memo table. -/

theorem keys_cons (k : Nat × Nat) (v : Int) (dp : Memo) :
    keys ((k, v) :: dp) = k :: keys dp := rfl

theorem dpGet_eq_none_iff {dp : Memo} {k : Nat × Nat} :
    dpGet dp k = none ↔ k ∉ keys dp := by
  induction dp with
  | nil => simp [dpGet, keys]
  | cons e rest ih =>
      obtain ⟨k1, v⟩ := e
      by_cases h : k = k1
      · subst h; simp [dpGet, keys]
      · simp [dpGet, h, keys, ih]

theorem dpGet_mem {dp : Memo} {k : Nat × Nat} {v : Int}
    (h : dpGet dp k = some v) : (k, v) ∈ dp := by
  induction dp with
  | nil => simp [dpGet] at h
  | cons e rest ih =>
      obtain ⟨k1, w⟩ := e
      by_cases hk : k = k1
      · subst hk
        rw [dpGet, if_pos rfl] at h
        injection h with h
        subst h
        exact List.mem_cons_self _ _
      · rw [dpGet, if_neg hk] at h
        exact List.mem_cons_of_mem _ (ih h)

theorem dpGet_cons_ne {dp : Memo} {k k1 : Nat × Nat} {v : Int} (h : k ≠ k1) :
    dpGet ((k1, v) :: dp) k = dpGet dp k := by
  rw [dpGet, if_neg h]

theorem mem_keys_of_mem {dp : Memo} {e : (Nat × Nat) × Int} (h : e ∈ dp) :
    e.1 ∈ keys dp := List.mem_map_of_mem Prod.fst h

/-! Facts about the minimisation fold. -/

theorem minOver_le_init (dist : List (List Int)) (mask pos : Nat)
    (value : Nat → Nat → Int) (cs : List Nat) (ans : Int) :
    minOver dist mask pos value cs ans ≤ ans := by
  induction cs generalizing ans with
  | nil => simp [minOver]
  | cons c cs ih =>
      rw [minOver]
      by_cases h : mask.testBit c
      · rw [if_pos h]; exact ih ans
      · rw [if_neg h]
        exact le_trans (ih _) (min_le_left _ _)

theorem minOver_le_cand (dist : List (List Int)) (mask pos : Nat)
    (value : Nat → Nat → Int) {cs : List Nat} {c : Nat} (hc : c ∈ cs)
    (hb : mask.testBit c = false) (ans : Int) :
    minOver dist mask pos value cs ans ≤ entry dist pos c + value (mask ||| 2 ^ c) c := by
  induction cs generalizing ans with
  | nil => exact absurd hc (List.not_mem_nil c)
  | cons c0 cs ih =>
      rw [minOver]
      rcases List.mem_cons.mp hc with h | h
      · subst h
        rw [if_neg (by simp [hb])]
        exact le_trans (minOver_le_init _ _ _ _ _ _) (min_le_right _ _)
      · by_cases h0 : mask.testBit c0
        · rw [if_pos h0]; exact ih h ans
        · rw [if_neg h0]; exact ih h _

theorem minOver_eq_init_or_cand (dist : List (List Int)) (mask pos : Nat)
    (value : Nat → Nat → Int) (cs : List Nat) (ans : Int) :
    minOver dist mask pos value cs ans = ans ∨
      ∃ c ∈ cs, mask.testBit c = false ∧
        minOver dist mask pos value cs ans = entry dist pos c + value (mask ||| 2 ^ c) c := by
  induction cs generalizing ans with
  | nil => left; rfl
  | cons c0 cs ih =>
      rw [minOver]
      by_cases h0 : mask.testBit c0
      · rw [if_pos h0]
        rcases ih ans with h | ⟨c, hc, hb, he⟩
        · left; exact h
        · right; exact ⟨c, List.mem_cons_of_mem _ hc, hb, he⟩
      · rw [if_neg h0]
        rcases ih (min ans (entry dist pos c0 + value (mask ||| 2 ^ c0) c0)) with h | ⟨c, hc, hb, he⟩
        · rcases min_choice ans (entry dist pos c0 + value (mask ||| 2 ^ c0) c0) with hm | hm
          · left; rw [h, hm]
          · right
            refine ⟨c0, List.mem_cons_self _ _, by simpa using h0, ?_⟩
            rw [h, hm]
        · right; exact ⟨c, List.mem_cons_of_mem _ hc, hb, he⟩

theorem minOver_congr (dist : List (List Int)) (mask pos : Nat)
    {value value2 : Nat → Nat → Int} {cs : List Nat}
    (h : ∀ c ∈ cs, mask.testBit c = false →
      value (mask ||| 2 ^ c) c = value2 (mask ||| 2 ^ c) c) (ans : Int) :
    minOver dist mask pos value cs ans = minOver dist mask pos value2 cs ans := by
  induction cs generalizing ans with
  | nil => rfl
  | cons c cs ih =>
      rw [minOver, minOver]
      by_cases hb : mask.testBit c
      · rw [if_pos hb, if_pos hb]
        exact ih (fun c' hc' => h c' (List.mem_cons_of_mem _ hc')) ans
      · rw [if_neg hb, if_neg hb, h c (List.mem_cons_self _ _) (by simpa using hb)]
        exact ih (fun c' hc' => h c' (List.mem_cons_of_mem _ hc')) _

/-! Unfolding equations for the canonical state cost. -/

theorem cost_base (n : Nat) (dist : List (List Int)) (pos : Nat) :
    cost n dist (2 ^ n - 1) pos = entry dist pos 0 := by
  rw [cost, tspCost, if_pos rfl]

theorem cost_rec {n mask : Nat} (dist : List (List Int)) (pos : Nat)
    (hne : mask ≠ 2 ^ n - 1) :
    cost n dist mask pos =
      minOver dist mask pos (cost n dist) (List.range n) INF := by
  rw [cost, tspCost, if_neg hne]
  apply minOver_congr
  intro c hc hb
  rw [List.mem_range] at hc
  have h1 : uncount n (mask ||| 2 ^ c) + 1 = uncount n mask := uncount_or hc hb
  rw [cost, ← h1]

/-! Unfolding equations for the executable functions. -/

theorem minOver_cons_skip {dist : List (List Int)} {mask pos c : Nat}
    {value : Nat → Nat → Int} {cs : List Nat} {ans : Int}
    (h : mask.testBit c = true) :
    minOver dist mask pos value (c :: cs) ans = minOver dist mask pos value cs ans := by
  rw [minOver, if_pos h]

theorem minOver_cons_go {dist : List (List Int)} {mask pos c : Nat}
    {value : Nat → Nat → Int} {cs : List Nat} {ans : Int}
    (h : mask.testBit c = false) :
    minOver dist mask pos value (c :: cs) ans =
      minOver dist mask pos value cs (min ans (entry dist pos c + value (mask ||| 2 ^ c) c)) := by
  rw [minOver, if_neg (by simp [h])]

theorem tspLoopAux_cons_skip {dist : List (List Int)} {mask pos c : Nat}
    {step : Nat → Nat → Memo → Int × Memo × List (Nat × Nat)}
    {cs : List Nat} {ans : Int} {dp : Memo} (h : mask.testBit c = true) :
    tspLoopAux dist mask pos step (c :: cs) ans dp =
      tspLoopAux dist mask pos step cs ans dp := by
  rw [tspLoopAux, if_pos h]

theorem tspLoopAux_cons_go {dist : List (List Int)} {mask pos c : Nat}
    {step : Nat → Nat → Memo → Int × Memo × List (Nat × Nat)}
    {cs : List Nat} {ans : Int} {dp : Memo} {v : Int} {d : Memo}
    {e : List (Nat × Nat)} (h : mask.testBit c = false)
    (hstep : step (mask ||| 2 ^ c) c dp = (v, d, e)) :
    tspLoopAux dist mask pos step (c :: cs) ans dp =
      ((tspLoopAux dist mask pos step cs (min ans (entry dist pos c + v)) d).1,
       (tspLoopAux dist mask pos step cs (min ans (entry dist pos c + v)) d).2.1,
       e ++ (tspLoopAux dist mask pos step cs (min ans (entry dist pos c + v)) d).2.2) := by
  rw [tspLoopAux, if_neg (by simp [h]), hstep]

theorem tsp_dp_base {n : Nat} {dist : List (List Int)} {f mask pos : Nat} {dp : Memo}
    (hfull : mask = 2 ^ n - 1) :
    tsp_dp n dist (f + 1) mask pos dp = (entry dist pos 0, dp, []) := by
  rw [tsp_dp, if_pos hfull]

theorem tsp_dp_hit {n : Nat} {dist : List (List Int)} {f mask pos : Nat} {dp : Memo}
    {v : Int} (hfull : mask ≠ 2 ^ n - 1) (hget : dpGet dp (mask, pos) = some v) :
    tsp_dp n dist (f + 1) mask pos dp = (v, dp, []) := by
  rw [tsp_dp, if_neg hfull, hget]

theorem tsp_dp_miss {n : Nat} {dist : List (List Int)} {f mask pos : Nat} {dp : Memo}
    (hfull : mask ≠ 2 ^ n - 1) (hget : dpGet dp (mask, pos) = none) :
    tsp_dp n dist (f + 1) mask pos dp =
      ((tspLoopAux dist mask pos (fun m p d => tsp_dp n dist f m p d) (List.range n) INF dp).1,
       ((mask, pos),
        (tspLoopAux dist mask pos (fun m p d => tsp_dp n dist f m p d) (List.range n) INF dp).1) ::
        (tspLoopAux dist mask pos (fun m p d => tsp_dp n dist f m p d) (List.range n) INF dp).2.1,
       (mask, pos) ::
        (tspLoopAux dist mask pos (fun m p d => tsp_dp n dist f m p d) (List.range n) INF dp).2.2) := by
  rw [tsp_dp, if_neg hfull, hget]

/-! The main `tsp_dp` specification: value correctness with respect to the
memo-free cost, memo-invariant preservation, write-once behaviour of the
table, and freshness of the recurrence-evaluation trace. -/

theorem tspLoopAux_spec {n : Nat} {dist : List (List Int)} {f : Nat}
    (hstep : ∀ m p d, uncount n m < f → m < 2 ^ n → p < n → GoodMemo n dist d →
      DPPost n dist m p d (tsp_dp n dist f m p d))
    {mask : Nat} (pos : Nat) (hmask : mask < 2 ^ n) (hu : uncount n mask < f + 1) :
    ∀ cs, (∀ c ∈ cs, c < n) → ∀ ans dp, GoodMemo n dist dp →
      LoopPost n dist mask pos cs ans dp
        (tspLoopAux dist mask pos (fun m p d => tsp_dp n dist f m p d) cs ans dp) := by
  intro cs
  induction cs with
  | nil =>
      intro _ ans dp hdp
      exact ⟨rfl, hdp, fun k _ => rfl, fun k hk => hk, List.nodup_nil,
        fun k hk => absurd hk (List.not_mem_nil k), fun k hk => Or.inl hk⟩
  | cons c0 cs ih =>
      intro hcs ans dp hdp
      have hc0 : c0 < n := hcs c0 (List.mem_cons_self _ _)
      by_cases hb : mask.testBit c0
      · rw [tspLoopAux_cons_skip hb]
        have h := ih (fun c hc => hcs c (List.mem_cons_of_mem _ hc)) ans dp hdp
        obtain ⟨h1, h2, h3, h4, h5, h6, h7⟩ := h
        exact ⟨by rw [minOver_cons_skip hb]; exact h1, h2, h3, h4, h5, h6, h7⟩
      · have hbf : mask.testBit c0 = false := by simpa using hb
        have hchild_lt : mask ||| 2 ^ c0 < 2 ^ n := or_pow_lt hmask hc0
        have hcu : uncount n (mask ||| 2 ^ c0) + 1 = uncount n mask := uncount_or hc0 hbf
        have hstep0 := hstep (mask ||| 2 ^ c0) c0 dp (by omega) hchild_lt hc0 hdp
        rcases hr1 : tsp_dp n dist f (mask ||| 2 ^ c0) c0 dp with ⟨v, d1, e1⟩
        rw [hr1] at hstep0
        obtain ⟨hv, hd1, hpres1, hmono1, hnd1, hfresh1, hcov1⟩ := hstep0
        simp only at hv hpres1 hmono1 hnd1 hfresh1 hcov1
        rw [tspLoopAux_cons_go hbf hr1]
        have h2 := ih (fun c hc => hcs c (List.mem_cons_of_mem _ hc))
          (min ans (entry dist pos c0 + v)) d1 hd1
        rcases hr2 : tspLoopAux dist mask pos (fun m p d => tsp_dp n dist f m p d) cs
          (min ans (entry dist pos c0 + v)) d1 with ⟨a2, d2, e2⟩
        rw [hr2] at h2
        obtain ⟨ha2, hd2, hpres2, hmono2, hnd2, hfresh2, hcov2⟩ := h2
        simp only at ha2 hpres2 hmono2 hnd2 hfresh2 hcov2
        subst hv
        refine ⟨?_, hd2, ?_, ?_, ?_, ?_, ?_⟩
        · rw [minOver_cons_go hbf]
          exact ha2
        · intro k hk
          rw [hpres2 k (hmono1 k hk), hpres1 k hk]
        · intro k hk
          exact hmono2 k (hmono1 k hk)
        · refine hnd1.append hnd2 ?_
          intro k hk1 hk2
          exact (hfresh2 k hk2).1 ((hfresh1 k hk1).2.1)
        · intro k hk
          rcases List.mem_append.mp hk with hk | hk
          · obtain ⟨hnot, hin, hsub, hlt1, hlt2⟩ := hfresh1 k hk
            refine ⟨hnot, hmono2 k hin, ?_, ?_, hlt1, hlt2⟩
            · intro j hj
              exact hsub j (testBit_or_pow_mono hj)
            · intro heq
              have hset : k.1.testBit c0 = true := hsub c0 (testBit_or_pow_self_of mask c0)
              rw [heq, hbf] at hset
              exact Bool.false_ne_true hset
          · obtain ⟨hnot, hin, hsub, hne, hlt1, hlt2⟩ := hfresh2 k hk
            exact ⟨fun hmem => hnot (hmono1 k hmem), hin, hsub, hne, hlt1, hlt2⟩
        · intro k hk
          rcases hcov2 k hk with hk1 | hk1
          · rcases hcov1 k hk1 with hk2 | hk2
            · exact Or.inl hk2
            · exact Or.inr (List.mem_append_left _ hk2)
          · exact Or.inr (List.mem_append_right _ hk1)

theorem tsp_dp_spec (n : Nat) (dist : List (List Int)) :
    ∀ f mask pos dp, uncount n mask < f → mask < 2 ^ n → pos < n →
      GoodMemo n dist dp → DPPost n dist mask pos dp (tsp_dp n dist f mask pos dp) := by
  intro f
  induction f with
  | zero =>
      intro mask pos dp hu
      exact absurd hu (Nat.not_lt_zero _)
  | succ f ih =>
      intro mask pos dp hu hmask hpos hdp
      by_cases hfull : mask = 2 ^ n - 1
      · rw [tsp_dp_base hfull]
        subst hfull
        exact ⟨(cost_base n dist pos).symm, hdp, fun k _ => rfl, fun k hk => hk,
          List.nodup_nil, fun k hk => absurd hk (List.not_mem_nil k),
          fun k hk => Or.inl hk⟩
      · cases hget : dpGet dp (mask, pos) with
        | some v =>
            rw [tsp_dp_hit hfull hget]
            have hv : v = cost n dist mask pos := (hdp.2 _ (dpGet_mem hget)).2.2
            exact ⟨hv, hdp, fun k _ => rfl, fun k hk => hk, List.nodup_nil,
              fun k hk => absurd hk (List.not_mem_nil k), fun k hk => Or.inl hk⟩
        | none =>
            rw [tsp_dp_miss hfull hget]
            have hloop := tspLoopAux_spec ih pos hmask hu (List.range n)
              (fun c hc => List.mem_range.mp hc) INF dp hdp
            rcases hr : tspLoopAux dist mask pos (fun m p d => tsp_dp n dist f m p d)
              (List.range n) INF dp with ⟨a, d1, e1⟩
            rw [hr] at hloop
            obtain ⟨ha, hd1, hpres1, hmono1, hnd1, hfresh1, hcov1⟩ := hloop
            simp only at ha hpres1 hmono1 hnd1 hfresh1 hcov1
            have hnotmem : (mask, pos) ∉ keys dp := dpGet_eq_none_iff.mp hget
            have hnotd1 : (mask, pos) ∉ keys d1 := by
              intro hmem
              rcases hcov1 _ hmem with h | h
              · exact hnotmem h
              · exact (hfresh1 _ h).2.2.2.1 rfl
            have hnote1 : (mask, pos) ∉ e1 := fun h => (hfresh1 _ h).2.2.2.1 rfl
            have hacost : a = cost n dist mask pos := by
              rw [ha, ← cost_rec dist pos hfull]
            refine ⟨hacost, ?_, ?_, ?_, ?_, ?_, ?_⟩
            · constructor
              · rw [keys_cons]
                exact List.nodup_cons.mpr ⟨hnotd1, hd1.1⟩
              · intro e he
                rcases List.mem_cons.mp he with he | he
                · subst he
                  exact ⟨hmask, hpos, hacost⟩
                · exact hd1.2 e he
            · intro k hk
              have hne : k ≠ (mask, pos) := fun h => hnotmem (h ▸ hk)
              rw [dpGet_cons_ne hne]
              exact hpres1 k hk
            · intro k hk
              rw [keys_cons]
              exact List.mem_cons_of_mem _ (hmono1 k hk)
            · exact List.nodup_cons.mpr ⟨hnote1, hnd1⟩
            · intro k hk
              rcases List.mem_cons.mp hk with hk | hk
              · subst hk
                refine ⟨hnotmem, ?_, fun j hj => hj, hmask, hpos⟩
                rw [keys_cons]
                exact List.mem_cons_self _ _
              · obtain ⟨hnot, hin, hsub, _, hlt1, hlt2⟩ := hfresh1 k hk
                refine ⟨hnot, ?_, hsub, hlt1, hlt2⟩
                rw [keys_cons]
                exact List.mem_cons_of_mem _ hin
            · intro k hk
              rw [keys_cons] at hk
              rcases List.mem_cons.mp hk with hk | hk
              · exact Or.inr (hk ▸ List.mem_cons_self _ _)
              · rcases hcov1 k hk with h | h
                · exact Or.inl h
                · exact Or.inr (List.mem_cons_of_mem _ h)

/-! Optimality of the memo-free cost: it is a lower bound on the cost of
every completion order of the unvisited cities, and (for suitably bounded
non-negative matrices) it is achieved by some completion order. -/

theorem cost_le_pathCost {n : Nat} {dist : List (List Int)} :
    ∀ (σ : List Nat) (mask pos : Nat), mask < 2 ^ n →
      σ.Perm (unvisited n mask) →
      cost n dist mask pos ≤ pathCost dist pos σ := by
  intro σ
  induction σ with
  | nil =>
      intro mask pos hmask hperm
      have hnil : unvisited n mask = [] := List.perm_nil.mp hperm.symm
      have hfull : mask = 2 ^ n - 1 := eq_full_of_unvisited_nil hmask hnil
      subst hfull
      rw [cost_base, pathCost]
  | cons c σ ih =>
      intro mask pos hmask hperm
      have hcU : c ∈ unvisited n mask := hperm.subset (List.mem_cons_self _ _)
      obtain ⟨hcn, hcb⟩ := mem_unvisited.mp hcU
      have hfull : mask ≠ 2 ^ n - 1 := by
        intro h
        rw [h, unvisited_full] at hcU
        exact List.not_mem_nil c hcU
      have hperm2 : σ.Perm (unvisited n (mask ||| 2 ^ c)) := by
        rw [unvisited_or hcn hcb]
        exact (hperm.trans (List.perm_cons_erase hcU)).cons_inv
      have h1 : cost n dist mask pos ≤
          entry dist pos c + cost n dist (mask ||| 2 ^ c) c := by
        rw [cost_rec dist pos hfull]
        exact minOver_le_cand dist mask pos _ (List.mem_range.mpr hcn) hcb INF
      have h2 := ih (mask ||| 2 ^ c) c (or_pow_lt hmask hcn) hperm2
      rw [pathCost]
      exact le_trans h1 (add_le_add_left h2 _)

theorem pathCost_le {n : Nat} {dist : List (List Int)} {B : Int}
    (hB : ∀ i j, i < n → j < n → entry dist i j ≤ B) :
    ∀ (σ : List Nat) (pos : Nat), pos < n → (∀ c ∈ σ, c < n) →
      pathCost dist pos σ ≤ ((σ.length : Int) + 1) * B := by
  intro σ
  induction σ with
  | nil =>
      intro pos hpos _
      simpa [pathCost] using hB pos 0 hpos (by omega)
  | cons c σ ih =>
      intro pos hpos hσ
      have hc : c < n := hσ c (List.mem_cons_self _ _)
      have h1 := ih c hc (fun x hx => hσ x (List.mem_cons_of_mem _ hx))
      have h2 : entry dist pos c ≤ B := hB pos c hpos hc
      rw [pathCost]
      have hlen : ((List.length (c :: σ) : Int) + 1) * B =
          B + ((σ.length : Int) + 1) * B := by
        simp [List.length_cons]
        ring
      rw [hlen]
      exact add_le_add h2 h1

theorem cost_nonneg {n : Nat} {dist : List (List Int)}
    (h0 : ∀ i j, i < n → j < n → 0 ≤ entry dist i j) :
    ∀ (u mask pos : Nat), uncount n mask = u → mask < 2 ^ n → pos < n →
      0 ≤ cost n dist mask pos := by
  intro u
  induction u with
  | zero =>
      intro mask pos hu hmask hpos
      have hfull : mask = 2 ^ n - 1 := (uncount_eq_zero_iff hmask).mp hu
      subst hfull
      rw [cost_base]
      exact h0 pos 0 hpos (by omega)
  | succ u ih =>
      intro mask pos hu hmask hpos
      have hfull : mask ≠ 2 ^ n - 1 := by
        intro h
        rw [(uncount_eq_zero_iff hmask).mpr h] at hu
        exact Nat.succ_ne_zero u hu.symm
      rw [cost_rec dist pos hfull]
      rcases minOver_eq_init_or_cand dist mask pos (cost n dist) (List.range n) INF with
        h | ⟨c, hc, hb, he⟩
      · rw [h]; rw [INF]; norm_num
      · rw [he]
        have hcn : c < n := List.mem_range.mp hc
        have hcu : uncount n (mask ||| 2 ^ c) + 1 = uncount n mask := uncount_or hcn hb
        have hchild := ih (mask ||| 2 ^ c) c (by omega) (or_pow_lt hmask hcn) hcn
        have hentry := h0 pos c hpos hcn
        omega

theorem cost_le_INF {n : Nat} {dist : List (List Int)}
    (hE : ∀ i j, i < n → j < n → entry dist i j ≤ INF)
    {mask pos : Nat} (hmask : mask < 2 ^ n) (hpos : pos < n) :
    cost n dist mask pos ≤ INF := by
  by_cases hfull : mask = 2 ^ n - 1
  · subst hfull
    rw [cost_base]
    exact hE pos 0 hpos (by omega)
  · rw [cost_rec dist pos hfull]
    exact minOver_le_init dist mask pos (cost n dist) (List.range n) INF

theorem cost_lt_INF {n : Nat} {dist : List (List Int)} {B : Int}
    (h0 : ∀ i j, i < n → j < n → 0 ≤ entry dist i j)
    (hB : ∀ i j, i < n → j < n → entry dist i j ≤ B)
    (hnB : (n : Int) * B < INF) {mask pos : Nat} (hmask : mask < 2 ^ n)
    (hpos : pos < n) (hbit : mask.testBit 0 = true) :
    cost n dist mask pos < INF := by
  have hB0 : 0 ≤ B := le_trans (h0 0 0 (by omega) (by omega)) (hB 0 0 (by omega) (by omega))
  have h1 : cost n dist mask pos ≤ pathCost dist pos (unvisited n mask) :=
    cost_le_pathCost _ mask pos hmask (List.Perm.refl _)
  have h2 : pathCost dist pos (unvisited n mask) ≤ ((uncount n mask : Int) + 1) * B :=
    pathCost_le hB (unvisited n mask) pos hpos (fun c hc => (mem_unvisited.mp hc).1)
  have h3 : uncount n mask < n := uncount_lt_of_bit0 (by omega) hbit
  have h4 : ((uncount n mask : Int) + 1) * B ≤ (n : Int) * B := by
    apply mul_le_mul_of_nonneg_right _ hB0
    have : (uncount n mask : Int) + 1 ≤ (n : Int) := by exact_mod_cast h3
    exact this
  exact lt_of_le_of_lt (le_trans h1 (le_trans h2 h4)) hnB

theorem cost_achieved {n : Nat} {dist : List (List Int)} {B : Int}
    (h0 : ∀ i j, i < n → j < n → 0 ≤ entry dist i j)
    (hB : ∀ i j, i < n → j < n → entry dist i j ≤ B)
    (hnB : (n : Int) * B < INF) :
    ∀ (u mask pos : Nat), uncount n mask = u → mask < 2 ^ n → pos < n →
      mask.testBit 0 = true →
      ∃ σ, σ.Perm (unvisited n mask) ∧ pathCost dist pos σ = cost n dist mask pos := by
  intro u
  induction u with
  | zero =>
      intro mask pos hu hmask hpos _
      have hfull : mask = 2 ^ n - 1 := (uncount_eq_zero_iff hmask).mp hu
      subst hfull
      refine ⟨[], by rw [unvisited_full], ?_⟩
      rw [cost_base, pathCost]
  | succ u ih =>
      intro mask pos hu hmask hpos hbit
      have hfull : mask ≠ 2 ^ n - 1 := by
        intro h
        rw [(uncount_eq_zero_iff hmask).mpr h] at hu
        exact Nat.succ_ne_zero u hu.symm
      have hlt : cost n dist mask pos < INF := cost_lt_INF h0 hB hnB hmask hpos hbit
      have hrec := @cost_rec n mask dist pos hfull
      rcases minOver_eq_init_or_cand dist mask pos (cost n dist) (List.range n) INF with
        h | ⟨c, hc, hb, he⟩
      · rw [hrec, h] at hlt
        exact absurd hlt (lt_irrefl INF)
      · have hcn : c < n := List.mem_range.mp hc
        have hcu : uncount n (mask ||| 2 ^ c) + 1 = uncount n mask := uncount_or hcn hb
        have hbit2 : (mask ||| 2 ^ c).testBit 0 = true := testBit_or_pow_mono hbit
        obtain ⟨σ, hσperm, hσcost⟩ := ih (mask ||| 2 ^ c) c (by omega)
          (or_pow_lt hmask hcn) hcn hbit2
        have hcU : c ∈ unvisited n mask := mem_unvisited.mpr ⟨hcn, hb⟩
        refine ⟨c :: σ, ?_, ?_⟩
        · rw [unvisited_or hcn hb] at hσperm
          exact (hσperm.cons c).trans (List.perm_cons_erase hcU).symm
        · rw [pathCost, hσcost, hrec, he]

/-! Bridges between the brute-force tour view and the DP state view. -/

theorem routeCost_cons_append (dist : List (List Int)) :
    ∀ (σ : List Nat) (pos : Nat),
      routeCost dist (pos :: (σ ++ [0])) = pathCost dist pos σ := by
  intro σ
  induction σ with
  | nil =>
      intro pos
      simp [routeCost, pathCost]
  | cons c σ ih =>
      intro pos
      rw [List.cons_append, routeCost, pathCost, ih c]

theorem tourCost_eq_pathCost (dist : List (List Int)) (σ : List Nat) :
    tourCost dist σ = pathCost dist 0 σ := by
  rw [tourCost, routeCost_cons_append]

theorem mem_tours_iff {n : Nat} {σ : List Nat} :
    σ ∈ tours n ↔ σ.Perm (unvisited n 1) := by
  rw [tours, List.mem_permutations', unvisited_one]

theorem GoodMemo_nil (n : Nat) (dist : List (List Int)) : GoodMemo n dist [] :=
  ⟨List.nodup_nil, fun e he => absurd he (List.not_mem_nil e)⟩

theorem one_lt_two_pow_of_pos {n : Nat} (h : 0 < n) : 1 < 2 ^ n := by
  have h2 : (2 : Nat) ^ 1 ≤ 2 ^ n := Nat.pow_le_pow_right (by norm_num) h
  omega

theorem testBit_one_zero : (1 : Nat).testBit 0 = true := by decide

/-! Unfolding equations for `reconstruct_go` and `solveRun`. -/

theorem reconstruct_go_full {n : Nat} {dist : List (List Int)} {f mask pos : Nat}
    {path : List Nat} {dp : Memo} (h : mask = 2 ^ n - 1) :
    reconstruct_go n dist (f + 1) mask pos path dp = (some (path ++ [0]), dp, []) := by
  rw [reconstruct_go, if_pos h]

theorem reconstruct_go_step {n : Nat} {dist : List (List Int)} {f mask pos : Nat}
    {path : List Nat} {dp : Memo} (hne : mask ≠ 2 ^ n - 1)
    {b : Nat} {m : Int} {d : Memo} {e : List (Nat × Nat)}
    (hs : selectLoop n dist mask pos (List.range n) 0 INF dp = (b, m, d, e)) :
    reconstruct_go n dist (f + 1) mask pos path dp =
      ((reconstruct_go n dist f (mask ||| 2 ^ b) b (path ++ [b]) d).1,
       (reconstruct_go n dist f (mask ||| 2 ^ b) b (path ++ [b]) d).2.1,
       e ++ (reconstruct_go n dist f (mask ||| 2 ^ b) b (path ++ [b]) d).2.2) := by
  rw [reconstruct_go, if_neg hne, hs]

theorem selectLoop_cons_skip {n : Nat} {dist : List (List Int)} {mask pos c : Nat}
    {cs : List Nat} {best : Nat} {bestCost : Int} {dp : Memo}
    (h : mask.testBit c = true) :
    selectLoop n dist mask pos (c :: cs) best bestCost dp =
      selectLoop n dist mask pos cs best bestCost dp := by
  rw [selectLoop, if_pos h]

theorem solveRun_eq {s : TSPSolver} (h : ¬ s.n ≤ 1) {v : Int} {d1 : Memo}
    {e1 : List (Nat × Nat)} (hf : tsp_dp s.n s.dist s.n 1 0 s.dp = (v, d1, e1))
    {p : Option (List Nat)} {d2 : Memo} {e2 : List (Nat × Nat)}
    (hr : reconstruct_path s.n s.dist d1 = (p, d2, e2)) :
    solveRun s = ((v, p), d2, e1 ++ e2) := by
  rw [solveRun, if_neg h]
  simp only [hf, hr]

theorem new_proj (M : List (List Int)) :
    (TSPSolver.new M).n = M.length ∧ (TSPSolver.new M).dist = M ∧
      (TSPSolver.new M).dp = [] := ⟨rfl, rfl, rfl⟩

theorem solve_fst_eq_cost {M : List (List Int)} (h2 : 2 ≤ M.length) :
    (TSPSolver.solve (TSPSolver.new M)).1 = cost M.length M 1 0 := by
  have hn : ¬ (TSPSolver.new M).n ≤ 1 := by
    show ¬ M.length ≤ 1
    omega
  have hu : uncount M.length 1 < M.length := by
    rw [uncount_one]
    omega
  have hspec := tsp_dp_spec M.length M M.length 1 0 [] hu
    (one_lt_two_pow_of_pos (by omega)) (by omega) (GoodMemo_nil _ _)
  rcases hf : tsp_dp M.length M M.length 1 0 [] with ⟨v, d1, e1⟩
  rw [hf] at hspec
  have hv : v = cost M.length M 1 0 := hspec.1
  rcases hr : reconstruct_path M.length M d1 with ⟨p, d2, e2⟩
  have hrun : solveRun (TSPSolver.new M) = ((v, p), d2, e1 ++ e2) :=
    solveRun_eq hn hf hr
  rw [TSPSolver.solve, hrun]
  exact hv

/-! Specification of the reconstruction scan `selectLoop`: it computes the
same minimisation as the recurrence, keeps the first strict improvement
(hence the lowest-indexed city among ties), and preserves the memo
invariants. -/

theorem selectLoop_cons_go {n : Nat} {dist : List (List Int)} {mask pos c : Nat}
    {cs : List Nat} {best : Nat} {bestCost : Int} {dp : Memo} {v : Int} {d : Memo}
    {e : List (Nat × Nat)} (hb : mask.testBit c = false)
    (h : (dpGet dp (mask ||| 2 ^ c, c) = some v ∧ d = dp ∧ e = []) ∨
         (dpGet dp (mask ||| 2 ^ c, c) = none ∧
           tsp_dp n dist n (mask ||| 2 ^ c) c dp = (v, d, e))) :
    selectLoop n dist mask pos (c :: cs) best bestCost dp =
      ((if entry dist pos c + v < bestCost
          then selectLoop n dist mask pos cs c (entry dist pos c + v) d
          else selectLoop n dist mask pos cs best bestCost d).1,
       (if entry dist pos c + v < bestCost
          then selectLoop n dist mask pos cs c (entry dist pos c + v) d
          else selectLoop n dist mask pos cs best bestCost d).2.1,
       (if entry dist pos c + v < bestCost
          then selectLoop n dist mask pos cs c (entry dist pos c + v) d
          else selectLoop n dist mask pos cs best bestCost d).2.2.1,
       e ++ (if entry dist pos c + v < bestCost
          then selectLoop n dist mask pos cs c (entry dist pos c + v) d
          else selectLoop n dist mask pos cs best bestCost d).2.2.2) := by
  rcases h with ⟨hget, hd, he⟩ | ⟨hget, htsp⟩
  · subst hd
    subst he
    rw [selectLoop, if_neg (by simp [hb]), hget]
  · rw [selectLoop, if_neg (by simp [hb]), hget, htsp]

theorem selectLoop_spec {n : Nat} {dist : List (List Int)} {mask : Nat} (pos : Nat)
    (hmask : mask < 2 ^ n) (hbit : mask.testBit 0 = true) :
    ∀ cs, (∀ c ∈ cs, c < n) → List.Pairwise (· < ·) cs →
      ∀ best bestCost dp, GoodMemo n dist dp →
        SelectPost n dist mask pos cs best bestCost dp
          (selectLoop n dist mask pos cs best bestCost dp) := by
  intro cs
  induction cs with
  | nil =>
      intro _ _ best bestCost dp hdp
      exact ⟨rfl, hdp, fun k _ => rfl, fun k hk => hk, List.nodup_nil,
        fun k hk => absurd hk (List.not_mem_nil k), fun k hk => Or.inl hk,
        Or.inl ⟨rfl, rfl⟩⟩
  | cons c0 cs ih =>
      intro hcs hpair best bestCost dp hdp
      have hc0 : c0 < n := hcs c0 (List.mem_cons_self _ _)
      have hcs2 : ∀ c ∈ cs, c < n := fun c hc => hcs c (List.mem_cons_of_mem _ hc)
      have hpair2 : List.Pairwise (· < ·) cs := hpair.of_cons
      have hlt0 : ∀ c ∈ cs, c0 < c := fun c hc => List.rel_of_pairwise_cons hpair hc
      by_cases hb : mask.testBit c0
      · rw [selectLoop_cons_skip hb]
        obtain ⟨h1, h2, h3, h4, h5, h6, h7, h8⟩ := ih hcs2 hpair2 best bestCost dp hdp
        refine ⟨by rw [minOver_cons_skip hb]; exact h1, h2, h3, h4, h5, h6, h7, ?_⟩
        rcases h8 with h8 | ⟨ha, hmem, hbit2, heq, htie⟩
        · exact Or.inl h8
        · refine Or.inr ⟨ha, List.mem_cons_of_mem _ hmem, hbit2, heq, ?_⟩
          intro c hc hcb hce
          rcases List.mem_cons.mp hc with hc | hc
          · subst hc
            rw [hb] at hcb
            exact absurd hcb (by simp)
          · exact htie c hc hcb hce
      · have hbf : mask.testBit c0 = false := by simpa using hb
        obtain ⟨v, d1, e1, hor, hv, hd1, hpres1, hmono1, hnd1, hfresh1, hcov1⟩ :
            ∃ v d1 e1,
              ((dpGet dp (mask ||| 2 ^ c0, c0) = some v ∧ d1 = dp ∧ e1 = []) ∨
               (dpGet dp (mask ||| 2 ^ c0, c0) = none ∧
                 tsp_dp n dist n (mask ||| 2 ^ c0) c0 dp = (v, d1, e1))) ∧
              v = cost n dist (mask ||| 2 ^ c0) c0 ∧ GoodMemo n dist d1 ∧
              (∀ k ∈ keys dp, dpGet d1 k = dpGet dp k) ∧
              (∀ k ∈ keys dp, k ∈ keys d1) ∧ e1.Nodup ∧
              (∀ k ∈ e1, k ∉ keys dp ∧ k ∈ keys d1) ∧
              (∀ k ∈ keys d1, k ∈ keys dp ∨ k ∈ e1) := by
          cases hget : dpGet dp (mask ||| 2 ^ c0, c0) with
          | some v =>
              exact ⟨v, dp, [], Or.inl ⟨rfl, rfl, rfl⟩,
                (hdp.2 _ (dpGet_mem hget)).2.2, hdp, fun k _ => rfl, fun k hk => hk,
                List.nodup_nil, fun k hk => absurd hk (List.not_mem_nil k),
                fun k hk => Or.inl hk⟩
          | none =>
              have hun : uncount n mask < n := uncount_lt_of_bit0 (by omega) hbit
              have hcu : uncount n (mask ||| 2 ^ c0) + 1 = uncount n mask :=
                uncount_or hc0 hbf
              have hspec := tsp_dp_spec n dist n (mask ||| 2 ^ c0) c0 dp (by omega)
                (or_pow_lt hmask hc0) hc0 hdp
              rcases htsp : tsp_dp n dist n (mask ||| 2 ^ c0) c0 dp with ⟨v, d1, e1⟩
              rw [htsp] at hspec
              obtain ⟨hv, hd1, hp, hm, hn1, hf1, hc1⟩ := hspec
              simp only at hv hp hm hn1 hf1 hc1
              exact ⟨v, d1, e1, Or.inr ⟨rfl, rfl⟩, hv, hd1, hp, hm, hn1,
                fun k hk => ⟨(hf1 k hk).1, (hf1 k hk).2.1⟩, hc1⟩
        rw [selectLoop_cons_go hbf hor]
        by_cases hcand : entry dist pos c0 + v < bestCost
        · rw [if_pos hcand]
          obtain ⟨h1, h2, h3, h4, h5, h6, h7, h8⟩ :=
            ih hcs2 hpair2 c0 (entry dist pos c0 + v) d1 hd1
          rcases hS : selectLoop n dist mask pos cs c0 (entry dist pos c0 + v) d1 with
            ⟨b2, m2, d2, e2⟩
          rw [hS] at h1 h2 h3 h4 h5 h6 h7 h8
          simp only at h1 h2 h3 h4 h5 h6 h7 h8 ⊢
          refine ⟨?_, h2, ?_, ?_, ?_, ?_, ?_, ?_⟩
          · rw [minOver_cons_go hbf, ← hv,
              min_eq_right (le_of_lt hcand)]
            exact h1
          · intro k hk
            rw [h3 k (hmono1 k hk), hpres1 k hk]
          · intro k hk
            exact h4 k (hmono1 k hk)
          · refine hnd1.append h5 ?_
            intro k hk1 hk2
            exact (h6 k hk2).1 ((hfresh1 k hk1).2)
          · intro k hk
            rcases List.mem_append.mp hk with hk | hk
            · exact ⟨(hfresh1 k hk).1, h4 k ((hfresh1 k hk).2)⟩
            · exact ⟨fun hmem => (h6 k hk).1 (hmono1 k hmem), (h6 k hk).2⟩
          · intro k hk
            rcases h7 k hk with hk1 | hk1
            · rcases hcov1 k hk1 with hk2 | hk2
              · exact Or.inl hk2
              · exact Or.inr (List.mem_append_left _ hk2)
            · exact Or.inr (List.mem_append_right _ hk1)
          · rcases h8 with ⟨hm2, hb2⟩ | ⟨hm2, hmem2, hbit2, heq2, htie2⟩
            · refine Or.inr ⟨by rw [hm2]; exact hcand, ?_, ?_, ?_, ?_⟩
              · rw [hb2]; exact List.mem_cons_self _ _
              · rw [hb2]; exact hbf
              · rw [hb2, ← hv, hm2]
              · intro c hc hcb hce
                rw [hb2]
                rcases List.mem_cons.mp hc with hc | hc
                · exact le_of_eq hc.symm
                · exact le_of_lt (hlt0 c hc)
            · refine Or.inr ⟨lt_trans hm2 hcand, List.mem_cons_of_mem _ hmem2,
                hbit2, heq2, ?_⟩
              intro c hc hcb hce
              rcases List.mem_cons.mp hc with hc | hc
              · exfalso
                subst hc
                have hem : entry dist pos c + v = m2 := by rw [hv]; exact hce
                rw [hem] at hm2
                exact lt_irrefl m2 hm2
              · exact htie2 c hc hcb hce
        · rw [if_neg hcand]
          obtain ⟨h1, h2, h3, h4, h5, h6, h7, h8⟩ :=
            ih hcs2 hpair2 best bestCost d1 hd1
          rcases hS : selectLoop n dist mask pos cs best bestCost d1 with
            ⟨b2, m2, d2, e2⟩
          rw [hS] at h1 h2 h3 h4 h5 h6 h7 h8
          simp only at h1 h2 h3 h4 h5 h6 h7 h8 ⊢
          refine ⟨?_, h2, ?_, ?_, ?_, ?_, ?_, ?_⟩
          · rw [minOver_cons_go hbf, ← hv,
              min_eq_left (not_lt.mp hcand)]
            exact h1
          · intro k hk
            rw [h3 k (hmono1 k hk), hpres1 k hk]
          · intro k hk
            exact h4 k (hmono1 k hk)
          · refine hnd1.append h5 ?_
            intro k hk1 hk2
            exact (h6 k hk2).1 ((hfresh1 k hk1).2)
          · intro k hk
            rcases List.mem_append.mp hk with hk | hk
            · exact ⟨(hfresh1 k hk).1, h4 k ((hfresh1 k hk).2)⟩
            · exact ⟨fun hmem => (h6 k hk).1 (hmono1 k hmem), (h6 k hk).2⟩
          · intro k hk
            rcases h7 k hk with hk1 | hk1
            · rcases hcov1 k hk1 with hk2 | hk2
              · exact Or.inl hk2
              · exact Or.inr (List.mem_append_left _ hk2)
            · exact Or.inr (List.mem_append_right _ hk1)
          · rcases h8 with ⟨hm2, hb2⟩ | ⟨hm2, hmem2, hbit2, heq2, htie2⟩
            · exact Or.inl ⟨hm2, hb2⟩
            · refine Or.inr ⟨hm2, List.mem_cons_of_mem _ hmem2, hbit2, heq2, ?_⟩
              intro c hc hcb hce
              rcases List.mem_cons.mp hc with hc | hc
              · exfalso
                subst hc
                have hem : entry dist pos c + v = m2 := by rw [hv]; exact hce
                rw [hem] at hcand
                exact hcand hm2
              · exact htie2 c hc hcb hce

/-! The reconstruction walk: memo-invariant preservation for every input, and
production of a valid optimal path on feasible non-negative instances. -/

theorem reconstruct_go_memo_spec {n : Nat} {dist : List (List Int)} (hn : 0 < n) :
    ∀ (f mask pos : Nat) (path : List Nat) (dp : Memo), mask < 2 ^ n →
      mask.testBit 0 = true → GoodMemo n dist dp →
      WalkPost n dist dp (reconstruct_go n dist f mask pos path dp) := by
  intro f
  induction f with
  | zero =>
      intro mask pos path dp _ _ hdp
      exact ⟨hdp, fun k _ => rfl, fun k hk => hk, List.nodup_nil,
        fun k hk => absurd hk (List.not_mem_nil k), fun k hk => Or.inl hk⟩
  | succ f ih =>
      intro mask pos path dp hmask hbit hdp
      by_cases hfull : mask = 2 ^ n - 1
      · rw [reconstruct_go_full hfull]
        exact ⟨hdp, fun k _ => rfl, fun k hk => hk, List.nodup_nil,
          fun k hk => absurd hk (List.not_mem_nil k), fun k hk => Or.inl hk⟩
      · have hsel := selectLoop_spec pos hmask hbit (List.range n)
          (fun c hc => List.mem_range.mp hc) (List.pairwise_lt_range n) 0 INF dp hdp
        rcases hS : selectLoop n dist mask pos (List.range n) 0 INF dp with
          ⟨b, m, d1, e1⟩
        rw [hS] at hsel
        obtain ⟨_, hd1, hpres1, hmono1, hnd1, hfresh1, hcov1, hsel8⟩ := hsel
        simp only at hd1 hpres1 hmono1 hnd1 hfresh1 hcov1 hsel8
        have hbn : b < n := by
          rcases hsel8 with ⟨_, hb0⟩ | ⟨_, hmem, _⟩
          · rw [hb0]; exact hn
          · exact List.mem_range.mp hmem
        rw [reconstruct_go_step hfull hS]
        have hrec := ih (mask ||| 2 ^ b) b (path ++ [b]) d1
          (or_pow_lt hmask hbn) (testBit_or_pow_mono hbit) hd1
        rcases hr : reconstruct_go n dist f (mask ||| 2 ^ b) b (path ++ [b]) d1 with
          ⟨p2, d2, e2⟩
        rw [hr] at hrec
        obtain ⟨hd2, hpres2, hmono2, hnd2, hfresh2, hcov2⟩ := hrec
        simp only at hd2 hpres2 hmono2 hnd2 hfresh2 hcov2 ⊢
        refine ⟨hd2, ?_, ?_, ?_, ?_, ?_⟩
        · intro k hk
          rw [hpres2 k (hmono1 k hk), hpres1 k hk]
        · intro k hk
          exact hmono2 k (hmono1 k hk)
        · refine hnd1.append hnd2 ?_
          intro k hk1 hk2
          exact (hfresh2 k hk2).1 ((hfresh1 k hk1).2)
        · intro k hk
          rcases List.mem_append.mp hk with hk | hk
          · exact ⟨(hfresh1 k hk).1, hmono2 k ((hfresh1 k hk).2)⟩
          · exact ⟨fun hmem => (hfresh2 k hk).1 (hmono1 k hmem), (hfresh2 k hk).2⟩
        · intro k hk
          rcases hcov2 k hk with hk1 | hk1
          · rcases hcov1 k hk1 with hk2 | hk2
            · exact Or.inl hk2
            · exact Or.inr (List.mem_append_left _ hk2)
          · exact Or.inr (List.mem_append_right _ hk1)

theorem reconstruct_go_feasible {n : Nat} {dist : List (List Int)}
    (h0 : ∀ i j, i < n → j < n → 0 ≤ entry dist i j) :
    ∀ (u f mask pos : Nat) (path : List Nat) (dp : Memo), uncount n mask = u →
      u < f → mask < 2 ^ n → pos < n → mask.testBit 0 = true →
      GoodMemo n dist dp → cost n dist mask pos < INF →
      ∃ mid, (reconstruct_go n dist f mask pos path dp).1 = some (path ++ mid ++ [0]) ∧
        mid.Perm (unvisited n mask) ∧
        pathCost dist pos mid = cost n dist mask pos := by
  intro u
  induction u with
  | zero =>
      intro f mask pos path dp hu hf hmask hpos hbit hdp _
      have hfull : mask = 2 ^ n - 1 := (uncount_eq_zero_iff hmask).mp hu
      cases f with
      | zero => exact absurd hf (Nat.not_lt_zero 0)
      | succ f =>
          rw [reconstruct_go_full hfull]
          refine ⟨[], by simp, by rw [hfull, unvisited_full], ?_⟩
          rw [hfull, pathCost, cost_base]
  | succ u ih =>
      intro f mask pos path dp hu hf hmask hpos hbit hdp hfeas
      have hfull : mask ≠ 2 ^ n - 1 := by
        intro h
        rw [(uncount_eq_zero_iff hmask).mpr h] at hu
        exact Nat.succ_ne_zero u hu.symm
      cases f with
      | zero => exact absurd hf (Nat.not_lt_zero _)
      | succ f =>
          have hsel := selectLoop_spec pos hmask hbit (List.range n)
            (fun c hc => List.mem_range.mp hc) (List.pairwise_lt_range n) 0 INF dp hdp
          rcases hS : selectLoop n dist mask pos (List.range n) 0 INF dp with
            ⟨b, m, d1, e1⟩
          rw [hS] at hsel
          obtain ⟨hm, hd1, _, _, _, _, _, hsel8⟩ := hsel
          simp only at hm hd1 hsel8
          have hmcost : m = cost n dist mask pos := by
            rw [hm, ← cost_rec dist pos hfull]
          rcases hsel8 with ⟨hmI, _⟩ | ⟨_, hmem, hbitb, heqb, _⟩
          · exfalso
            rw [hmcost] at hmI
            rw [hmI] at hfeas
            exact lt_irrefl INF hfeas
          · have hbn : b < n := List.mem_range.mp hmem
            have hE : 0 ≤ entry dist pos b := h0 pos b hpos hbn
            have hchild_lt : cost n dist (mask ||| 2 ^ b) b < INF := by
              rw [hmcost] at heqb
              omega
            have hcu : uncount n (mask ||| 2 ^ b) + 1 = uncount n mask :=
              uncount_or hbn hbitb
            obtain ⟨mid, hmid, hperm, hcost⟩ := ih f (mask ||| 2 ^ b) b (path ++ [b])
              d1 (by omega) (by omega) (or_pow_lt hmask hbn) hbn
              (testBit_or_pow_mono hbit) hd1 hchild_lt
            rw [reconstruct_go_step hfull hS]
            refine ⟨b :: mid, ?_, ?_, ?_⟩
            · simp only
              rw [hmid]
              congr 1
              simp
            · have hcU : b ∈ unvisited n mask := mem_unvisited.mpr ⟨hbn, hbitb⟩
              rw [unvisited_or hbn hbitb] at hperm
              exact (hperm.cons b).trans (List.perm_cons_erase hcU).symm
            · rw [pathCost, hcost, heqb, hmcost]

/-- Size bound on any memo table satisfying the invariant. -/
theorem memo_length_le {n : Nat} {dist : List (List Int)} {dp : Memo}
    (h : GoodMemo n dist dp) : dp.length ≤ n * 2 ^ n := by
  have hlen : (keys dp).length = dp.length := List.length_map _ _
  have hcard : (keys dp).toFinset.card = (keys dp).length :=
    List.toFinset_card_of_nodup h.1
  have hsub : (keys dp).toFinset ⊆ Finset.range (2 ^ n) ×ˢ Finset.range n := by
    intro k hk
    rw [List.mem_toFinset] at hk
    rcases List.mem_map.mp hk with ⟨e, he, hke⟩
    obtain ⟨h1, h2, _⟩ := h.2 e he
    rw [Finset.mem_product, Finset.mem_range, Finset.mem_range, ← hke]
    exact ⟨h1, h2⟩
  have hle := Finset.card_le_card hsub
  rw [hcard, hlen, Finset.card_product, Finset.card_range, Finset.card_range,
    Nat.mul_comm] at hle
  exact hle

/-- Characterisation of `List.min?` over the integers. -/
theorem intMin_eq_some {l : List Int} {v : Int} (h1 : v ∈ l)
    (h2 : ∀ b ∈ l, v ≤ b) : l.min? = some v := by
  have hanti : Std.Antisymm (fun (x1 x2 : Int) => x1 ≤ x2) :=
    ⟨fun {a b} ha hb => le_antisymm ha hb⟩
  rw [@List.min?_eq_some_iff _ _ _ _ hanti (fun a => le_refl a)
    (fun a b => min_choice a b) (fun a b c => le_min_iff)]
  exact ⟨h1, h2⟩

/-- On `M2` the reconstruction loop is stuck at state `(mask, pos) = (1, 0)`:
no candidate improves on `INF`, so the scan returns `next_city = 0`, the
mask stays `1`, and the state repeats for every amount of fuel.  This is the
infinite loop of the Rust `while` loop on an infeasible instance. -/
theorem recon_stuck_M2 : ∀ (f : Nat) (path : List Nat),
    reconstruct_go 2 M2 f 1 0 path dpF2 = (none, dpF2, []) := by
  intro f
  induction f with
  | zero => intro path; rfl
  | succ f ih =>
      intro path
      have hsel : selectLoop 2 M2 1 0 (List.range 2) 0 INF dpF2 =
          (0, INF, dpF2, []) := by decide
      rw [reconstruct_go_step (by decide) hsel]
      have h1 : (1 : Nat) ||| 2 ^ 0 = 1 := by decide
      rw [h1, ih (path ++ [0])]
      rfl

/-! The claims. -/

/-- C1 (counterexample): the matrix `MB` is square with `n = 2`, all its
costs are non-negative and finite (strictly below the sentinel), and its
unique Hamiltonian cycle costs `2147483644`; yet `solve` returns the
sentinel `1073741823`, because the recurrence clamps every accumulated
value at `INF`.  The claim as stated is therefore false. -/
theorem C1_counterexample :
    (∀ i, i < MB.length → ∀ j, j < MB.length →
      0 ≤ entry MB i j ∧ entry MB i j < INF) ∧
    2 ≤ MB.length ∧ MB.length ≤ 6 ∧
    (TSPSolver.solve (TSPSolver.new MB)).1 = 1073741823 ∧
    ((tours MB.length).map (tourCost MB)).min? = some 2147483644 ∧
    (1073741823 : Int) ≠ 2147483644 := by decide

/-- C1 (amended): for every square matrix with `2 ≤ n ≤ 6` whose costs are
non-negative and bounded by some `B` with `n * B` below the sentinel (so
that no sum of up to `n` edge costs can reach the sentinel), the cost
returned by `solve` equals the minimum, over all brute-force-enumerated
Hamiltonian cycles, of the cycle's total edge cost. -/
theorem C1_bounded_matrix_optimal (M : List (List Int)) (B : Int)
    (h2 : 2 ≤ M.length) (_h6 : M.length ≤ 6)
    (_hsq : ∀ r ∈ M, r.length = M.length)
    (h0 : ∀ i j, i < M.length → j < M.length → 0 ≤ entry M i j)
    (hB : ∀ i j, i < M.length → j < M.length → entry M i j ≤ B)
    (hnB : (M.length : Int) * B < INF) :
    ((tours M.length).map (tourCost M)).min? =
      some (TSPSolver.solve (TSPSolver.new M)).1 := by
  rw [solve_fst_eq_cost h2]
  apply intMin_eq_some
  · obtain ⟨σ, hperm, hcost⟩ := cost_achieved h0 hB hnB (uncount M.length 1) 1 0 rfl
      (one_lt_two_pow_of_pos (by omega)) (by omega) testBit_one_zero
    refine List.mem_map.mpr ⟨σ, mem_tours_iff.mpr hperm, ?_⟩
    rw [tourCost_eq_pathCost, hcost]
  · intro b hb
    rcases List.mem_map.mp hb with ⟨τ, hτ, hbe⟩
    rw [← hbe, tourCost_eq_pathCost]
    exact cost_le_pathCost τ 1 0 (one_lt_two_pow_of_pos (by omega))
      (mem_tours_iff.mp hτ)

/-- C1 (witness): the amended theorem applied to the concrete 4-city
scenario matrix with bound `B = 35`. -/
theorem C1_bounded_matrix_optimal_witness :
    ((tours M4.length).map (tourCost M4)).min? =
      some (TSPSolver.solve (TSPSolver.new M4)).1 :=
  C1_bounded_matrix_optimal M4 35 (by decide) (by decide) (by decide)
    (fun i j hi hj =>
      (by decide : ∀ i, i < M4.length → ∀ j, j < M4.length → 0 ≤ entry M4 i j)
        i hi j hj)
    (fun i j hi hj =>
      (by decide : ∀ i, i < M4.length → ∀ j, j < M4.length → entry M4 i j ≤ 35)
        i hi j hj)
    (by decide)

/-- C2: on the infeasible instance `M2` (city 1 isolated: every edge of
city 1 is the sentinel), the forward pass correctly computes the sentinel
cost, but `reconstruct_path` never terminates: for every amount of fuel the
loop returns from state `(1, 0)` to state `(1, 0)` having pushed city `0`
again, so the Rust `while` loop runs forever and `solve` never returns at
all — it does not return the sentinel cost with a syntactically valid path
as the claim states.  (`none` in the embedding marks the non-terminating
loop.) -/
theorem C2_infeasible_never_returns :
    tsp_dp 2 M2 2 1 0 [] = (1073741823, dpF2, [(1, 0)]) ∧
    (∀ (f : Nat) (path : List Nat),
      reconstruct_go 2 M2 f 1 0 path dpF2 = (none, dpF2, [])) ∧
    TSPSolver.solve (TSPSolver.new M2) = (1073741823, none) :=
  ⟨by decide, recon_stuck_M2, by decide⟩

/-- C3: on the concrete spec matrix, `solve` returns cost `80` and the
path `[0, 1, 3, 2, 0]`. -/
theorem C3_concrete_scenario :
    TSPSolver.solve (TSPSolver.new M4) = (80, some [0, 1, 3, 2, 0]) := by
  decide

/-- C4 (counterexample): `M3neg` is a square 3-city matrix admitting the
finite-cost Hamiltonian cycle `0 → 2 → 1 → 0` (cost `105 < INF`), yet
`solve` returns cost `104` with the malformed path `[0, 1, 0, 2, 0]`: city
`0` appears as an intermediate element, the intermediate cities are not a
permutation of `{1, 2}`, and the edge sum along the path is
`-1073741606 ≠ 104`.  (The reconstruction loop gets stuck once, re-pushes
city 0 resetting `pos`, then continues.)  The claim as stated is false. -/
theorem C4_counterexample :
    2 ≤ M3neg.length ∧ (∀ r ∈ M3neg, r.length = M3neg.length) ∧
    [2, 1] ∈ tours M3neg.length ∧ tourCost M3neg [2, 1] = 105 ∧
    (105 : Int) < INF ∧
    TSPSolver.solve (TSPSolver.new M3neg) = (104, some [0, 1, 0, 2, 0]) ∧
    ¬ [1, 0, 2].Perm ((List.range 3).drop 1) ∧
    routeCost M3neg [0, 1, 0, 2, 0] = -1073741606 ∧
    ((-1073741606 : Int) ≠ 104) := by decide

/-- C4 (amended): for every square matrix with `n ≥ 2`, *non-negative*
entries, and a Hamiltonian cycle of cost below the sentinel, the path
returned by `solve` starts and ends at city 0, contains every other city
exactly once as an intermediate element, and the sum of the matrix's edge
costs along consecutive elements equals the returned cost. -/
theorem C4_feasible_path_realizes_cost (M : List (List Int))
    (h2 : 2 ≤ M.length) (_hsq : ∀ r ∈ M, r.length = M.length)
    (h0 : ∀ i j, i < M.length → j < M.length → 0 ≤ entry M i j)
    (hfeas : ∃ t ∈ tours M.length, tourCost M t < INF) :
    ∃ mid, (TSPSolver.solve (TSPSolver.new M)).2 = some (0 :: (mid ++ [0])) ∧
      mid.Perm ((List.range M.length).drop 1) ∧
      routeCost M (0 :: (mid ++ [0])) = (TSPSolver.solve (TSPSolver.new M)).1 := by
  have hn1 : ¬ (TSPSolver.new M).n ≤ 1 := by
    show ¬ M.length ≤ 1
    omega
  have hu : uncount M.length 1 < M.length := by
    rw [uncount_one]
    omega
  have hmask1 : (1 : Nat) < 2 ^ M.length := one_lt_two_pow_of_pos (by omega)
  have hspec := tsp_dp_spec M.length M M.length 1 0 [] hu hmask1 (by omega)
    (GoodMemo_nil _ _)
  rcases hf : tsp_dp M.length M M.length 1 0 [] with ⟨v, d1, e1⟩
  rw [hf] at hspec
  obtain ⟨hv, hd1, -, -, -, -, -⟩ := hspec
  simp only at hv hd1
  obtain ⟨t, ht, htc⟩ := hfeas
  have hroot : cost M.length M 1 0 < INF := by
    have hle := @cost_le_pathCost M.length M t 1 0 hmask1 (mem_tours_iff.mp ht)
    rw [tourCost_eq_pathCost] at htc
    exact lt_of_le_of_lt hle htc
  obtain ⟨mid, hmid, hperm, hcost⟩ := reconstruct_go_feasible h0
    (uncount M.length 1) (2 * M.length) 1 0 [0] d1 rfl
    (by rw [uncount_one]; omega) hmask1 (by omega) testBit_one_zero hd1 hroot
  rcases hr : reconstruct_path M.length M d1 with ⟨p, d2, e2⟩
  have hr2 : reconstruct_go M.length M (2 * M.length) 1 0 [0] d1 = (p, d2, e2) := hr
  rw [hr2] at hmid
  simp only at hmid
  have hrun := solveRun_eq hn1 hf hr
  rw [TSPSolver.solve, hrun]
  refine ⟨mid, ?_, ?_, ?_⟩
  · simp only
    rw [hmid]
    rfl
  · rw [← unvisited_one]
    exact hperm
  · rw [routeCost_cons_append M mid 0, hcost]
    simp only
    exact hv.symm

/-- C4 (witness): the amended theorem applied to the concrete 4-city
scenario matrix. -/
theorem C4_feasible_path_realizes_cost_witness :
    ∃ mid, (TSPSolver.solve (TSPSolver.new M4)).2 = some (0 :: (mid ++ [0])) ∧
      mid.Perm ((List.range M4.length).drop 1) ∧
      routeCost M4 (0 :: (mid ++ [0])) = (TSPSolver.solve (TSPSolver.new M4)).1 :=
  C4_feasible_path_realizes_cost M4 (by decide) (by decide)
    (fun i j hi hj =>
      (by decide : ∀ i, i < M4.length → ∀ j, j < M4.length → 0 ≤ entry M4 i j)
        i hi j hj)
    ⟨[1, 2, 3], by decide, by decide⟩

/-- C5 (counterexample): on `MINF3`, at the first reconstruction step
(state `mask = 1`, `pos = 0`) the two unvisited cities 1 and 2 tie at the
minimal candidate value `2147483646`, yet the scan returns `next_city = 0`
— a city that is already visited, not the lowest-indexed tied candidate
(city 1).  The claim as stated is false when no candidate beats the `INF`
initial accumulator. -/
theorem C5_counterexample :
    (tsp_dp 3 MINF3 3 1 0 []).2.1 = dpF3 ∧
    (selectLoop 3 MINF3 1 0 (List.range 3) 0 INF dpF3).1 = 0 ∧
    (1 : Nat).testBit 0 = true ∧
    Nat.testBit 1 1 = false ∧ Nat.testBit 1 2 = false ∧
    entry MINF3 0 1 + cost 3 MINF3 (1 ||| 2 ^ 1) 1 = 2147483646 ∧
    entry MINF3 0 2 + cost 3 MINF3 (1 ||| 2 ^ 2) 2 = 2147483646 ∧
    (0 : Nat) ≠ 1 := by decide

/-- C5 (amended): at every reconstruction step whose state cost is below
the sentinel, the scanned minimum equals the recurrence minimum, the
selected city is an unvisited city realising it, and among all unvisited
cities realising the minimal candidate value the selected one has the
lowest index.  (When no candidate is below the sentinel the loop instead
keeps the initial `next_city = 0`, see the counterexample; determinism of
the returned path is immediate since `solve` is a function of the
matrix.) -/
theorem C5_reconstruction_tie_break (n : Nat) (dist : List (List Int))
    (mask pos : Nat) (dp : Memo) (hmask : mask < 2 ^ n)
    (hbit : mask.testBit 0 = true) (hdp : GoodMemo n dist dp)
    (hne : mask ≠ 2 ^ n - 1) (hfeas : cost n dist mask pos < INF) :
    mask.testBit (selectLoop n dist mask pos (List.range n) 0 INF dp).1 = false ∧
    (selectLoop n dist mask pos (List.range n) 0 INF dp).1 < n ∧
    entry dist pos (selectLoop n dist mask pos (List.range n) 0 INF dp).1 +
      cost n dist
        (mask ||| 2 ^ (selectLoop n dist mask pos (List.range n) 0 INF dp).1)
        (selectLoop n dist mask pos (List.range n) 0 INF dp).1 =
      cost n dist mask pos ∧
    (selectLoop n dist mask pos (List.range n) 0 INF dp).2.1 =
      cost n dist mask pos ∧
    ∀ c, c < n → mask.testBit c = false →
      entry dist pos c + cost n dist (mask ||| 2 ^ c) c = cost n dist mask pos →
      (selectLoop n dist mask pos (List.range n) 0 INF dp).1 ≤ c := by
  have hsel := selectLoop_spec pos hmask hbit (List.range n)
    (fun c hc => List.mem_range.mp hc) (List.pairwise_lt_range n) 0 INF dp hdp
  rcases hS : selectLoop n dist mask pos (List.range n) 0 INF dp with ⟨b, m, d1, e1⟩
  rw [hS] at hsel
  obtain ⟨hm, -, -, -, -, -, -, h8⟩ := hsel
  simp only at hm h8 ⊢
  have hmc : m = cost n dist mask pos := by
    rw [hm, ← cost_rec dist pos hne]
  rcases h8 with ⟨hmi, -⟩ | ⟨-, hmem, hbitb, heq, htie⟩
  · exfalso
    rw [hmc] at hmi
    rw [hmi] at hfeas
    exact lt_irrefl _ hfeas
  · refine ⟨hbitb, List.mem_range.mp hmem, by rw [heq, hmc], hmc, ?_⟩
    intro c hc hcb hce
    refine htie c (List.mem_range.mpr hc) hcb ?_
    rw [hmc]
    exact hce

/-- C5 (witness): the amended theorem at the first reconstruction step of
the concrete 4-city scenario, where cities 1 and 2 tie at candidate value
80 and city 1 is selected. -/
theorem C5_reconstruction_tie_break_witness :
    Nat.testBit 1 (selectLoop 4 M4 1 0 (List.range 4) 0 INF dpM4).1 = false ∧
    (selectLoop 4 M4 1 0 (List.range 4) 0 INF dpM4).1 < 4 ∧
    entry M4 0 (selectLoop 4 M4 1 0 (List.range 4) 0 INF dpM4).1 +
      cost 4 M4 (1 ||| 2 ^ (selectLoop 4 M4 1 0 (List.range 4) 0 INF dpM4).1)
        (selectLoop 4 M4 1 0 (List.range 4) 0 INF dpM4).1 = cost 4 M4 1 0 ∧
    (selectLoop 4 M4 1 0 (List.range 4) 0 INF dpM4).2.1 = cost 4 M4 1 0 ∧
    ∀ c, c < 4 → Nat.testBit 1 c = false →
      entry M4 0 c + cost 4 M4 (1 ||| 2 ^ c) c = cost 4 M4 1 0 →
      (selectLoop 4 M4 1 0 (List.range 4) 0 INF dpM4).1 ≤ c :=
  C5_reconstruction_tie_break 4 M4 1 0 dpM4 (by decide) (by decide)
    (by unfold GoodMemo; decide) (by decide) (by decide)

/-- C6 (counterexample): the empty matrix is not rejected: construction
succeeds (the embedded `new` is a total function — the Rust `new` contains
no validation and no error path), and `solve` computes the normal result
`(0, [0])` through the `n <= 1` early return instead of producing any
error. -/
theorem C6_counterexample :
    TSPSolver.new ([] : List (List Int)) = ⟨0, [], [], 0⟩ ∧
    TSPSolver.solve (TSPSolver.new ([] : List (List Int))) = (0, some [0]) :=
  ⟨rfl, by decide⟩

/-- C6 (amended): the core performs no input validation at all:
construction accepts every vector of rows unchanged, and on the empty
matrix `solve` returns cost 0 and path `[0]` with no error, no memo entry
and no DP evaluation.  (Row-length validation exists only in the
out-of-scope input parser.) -/
theorem C6_no_validation_in_core :
    (∀ M : List (List Int),
      TSPSolver.new M = ⟨M.length, M, [], M.length * 2 ^ M.length⟩) ∧
    solveRun (TSPSolver.new ([] : List (List Int))) = ((0, some [0]), [], []) :=
  ⟨fun _ => rfl, by decide⟩

/-- C7 (counterexample): construction does not reject the matrix `MX`
whose entries are `i32::MAX` (the embedded `new`, like the Rust `new`, has
no validation or error path and returns a fully built solver), and during
the recurrence on `MX` the addition `dist[0][1] + tsp_dp(0b11, 1)`
evaluates to `4294967294`, which exceeds `i32::MAX = 2^31 - 1` — in Rust
this addition overflows (panic in debug, wrap-around in release).  Both
halves of the claim are false. -/
theorem C7_counterexample :
    TSPSolver.new MX = ⟨2, MX, [], 8⟩ ∧
    entry MX 0 1 + cost 2 MX 3 1 = 4294967294 ∧
    ¬ ((4294967294 : Int) ≤ 2 ^ 31 - 1) :=
  ⟨rfl, by decide, by decide⟩

/-- C7 (amended): construction performs no overflow validation (it accepts
every matrix), but for matrices whose entries all lie in `[0, INF]`, every
DP state value lies in `[0, INF]`, hence every addition of an edge cost and
a subproblem cost performed by the recurrence stays within `[0, 2 * INF]`,
and `2 * INF < 2^31`, so no addition overflows or wraps the `i32`
representation. -/
theorem C7_bounded_entries_no_overflow (M : List (List Int))
    (hE : ∀ i j, i < M.length → j < M.length →
      0 ≤ entry M i j ∧ entry M i j ≤ INF) :
    TSPSolver.new M = ⟨M.length, M, [], M.length * 2 ^ M.length⟩ ∧
    (∀ mask pos, mask < 2 ^ M.length → pos < M.length →
      0 ≤ cost M.length M mask pos ∧ cost M.length M mask pos ≤ INF) ∧
    (∀ mask pos c, mask < 2 ^ M.length → pos < M.length → c < M.length →
      0 ≤ entry M pos c + cost M.length M (mask ||| 2 ^ c) c ∧
      entry M pos c + cost M.length M (mask ||| 2 ^ c) c ≤ 2 * INF) ∧
    (2 * INF : Int) < 2 ^ 31 := by
  have h0 : ∀ i j, i < M.length → j < M.length → 0 ≤ entry M i j :=
    fun i j hi hj => (hE i j hi hj).1
  have h1 : ∀ i j, i < M.length → j < M.length → entry M i j ≤ INF :=
    fun i j hi hj => (hE i j hi hj).2
  refine ⟨rfl, ?_, ?_, by decide⟩
  · intro mask pos hmask hpos
    exact ⟨cost_nonneg h0 (uncount M.length mask) mask pos rfl hmask hpos,
      cost_le_INF h1 hmask hpos⟩
  · intro mask pos c hmask hpos hc
    have ha := cost_nonneg h0 (uncount M.length (mask ||| 2 ^ c)) (mask ||| 2 ^ c) c
      rfl (or_pow_lt hmask hc) hc
    have hb := cost_le_INF h1 (or_pow_lt hmask hc) hc
    have hcc := hE pos c hpos hc
    constructor
    · omega
    · omega

/-- C7 (witness): the amended theorem applied to the concrete 4-city
scenario matrix, whose entries lie in `[0, INF]`. -/
theorem C7_bounded_entries_no_overflow_witness :
    TSPSolver.new M4 = ⟨M4.length, M4, [], M4.length * 2 ^ M4.length⟩ ∧
    (∀ mask pos, mask < 2 ^ M4.length → pos < M4.length →
      0 ≤ cost M4.length M4 mask pos ∧ cost M4.length M4 mask pos ≤ INF) ∧
    (∀ mask pos c, mask < 2 ^ M4.length → pos < M4.length → c < M4.length →
      0 ≤ entry M4 pos c + cost M4.length M4 (mask ||| 2 ^ c) c ∧
      entry M4 pos c + cost M4.length M4 (mask ||| 2 ^ c) c ≤ 2 * INF) ∧
    (2 * INF : Int) < 2 ^ 31 :=
  C7_bounded_entries_no_overflow M4
    (fun i j hi hj =>
      (by decide : ∀ i, i < M4.length → ∀ j, j < M4.length →
        0 ≤ entry M4 i j ∧ entry M4 i j ≤ INF) i hi j hj)

/-- C8: throughout a `solve` call the memo table holds at most `n * 2^n`
entries (final table bounded, with pairwise-distinct keys and every stored
value equal to the pure cost of its state — so re-deriving any entry could
only rewrite the same value), and whenever `tsp_dp` runs on a valid state
with a valid table, every pre-existing key keeps exactly its old value
(entries are never overwritten). -/
theorem C8_memo_bounded_write_once (M : List (List Int)) :
    (solveRun (TSPSolver.new M)).2.1.length ≤ M.length * 2 ^ M.length ∧
    (keys (solveRun (TSPSolver.new M)).2.1).Nodup ∧
    (∀ e ∈ (solveRun (TSPSolver.new M)).2.1, e.2 = cost M.length M e.1.1 e.1.2) ∧
    (∀ (f mask pos : Nat) (dp : Memo), uncount M.length mask < f →
      mask < 2 ^ M.length → pos < M.length → GoodMemo M.length M dp →
      ∀ k ∈ keys dp, dpGet (tsp_dp M.length M f mask pos dp).2.1 k = dpGet dp k ∧
        k ∈ keys (tsp_dp M.length M f mask pos dp).2.1) := by
  have hfinal : GoodMemo M.length M (solveRun (TSPSolver.new M)).2.1 := by
    by_cases h1 : M.length ≤ 1
    · have heq : solveRun (TSPSolver.new M) = ((0, some [0]), [], []) := by
        rw [solveRun, if_pos (show (TSPSolver.new M).n ≤ 1 from h1)]
        rfl
      rw [heq]
      exact GoodMemo_nil _ _
    · have hn1 : ¬ (TSPSolver.new M).n ≤ 1 := h1
      have hu : uncount M.length 1 < M.length := by rw [uncount_one]; omega
      have hspec := tsp_dp_spec M.length M M.length 1 0 [] hu
        (one_lt_two_pow_of_pos (by omega)) (by omega) (GoodMemo_nil _ _)
      rcases hf : tsp_dp M.length M M.length 1 0 [] with ⟨v, d1, e1⟩
      rw [hf] at hspec
      obtain ⟨-, hd1, -, -, -, -, -⟩ := hspec
      simp only at hd1
      have hwalk := reconstruct_go_memo_spec (show 0 < M.length by omega)
        (2 * M.length) 1 0 [0] d1 (one_lt_two_pow_of_pos (by omega))
        testBit_one_zero hd1
      rcases hr : reconstruct_path M.length M d1 with ⟨p, d2, e2⟩
      have hr2 : reconstruct_go M.length M (2 * M.length) 1 0 [0] d1 =
        (p, d2, e2) := hr
      rw [hr2] at hwalk
      obtain ⟨hd2, -, -, -, -, -⟩ := hwalk
      simp only at hd2
      rw [solveRun_eq hn1 hf hr]
      exact hd2
  refine ⟨memo_length_le hfinal, hfinal.1, fun e he => (hfinal.2 e he).2.2, ?_⟩
  intro f mask pos dp hu2 hm2 hp2 hdp k hk
  have hspec := tsp_dp_spec M.length M f mask pos dp hu2 hm2 hp2 hdp
  exact ⟨hspec.2.2.1 k hk, hspec.2.2.2.1 k hk⟩

/-- C8 (witness): the bound at the concrete 4-city matrix, and preservation
of a pre-existing entry by a concrete `tsp_dp` call. -/
theorem C8_memo_bounded_write_once_witness :
    (solveRun (TSPSolver.new M4)).2.1.length ≤ M4.length * 2 ^ M4.length ∧
    dpGet (tsp_dp M4.length M4 4 3 1 [((1, 0), 80)]).2.1 (1, 0) = some 80 := by
  refine ⟨(C8_memo_bounded_write_once M4).1, ?_⟩
  have h := (C8_memo_bounded_write_once M4).2.2.2 4 3 1 [((1, 0), 80)]
    (by decide) (by decide) (by decide) (by unfold GoodMemo; decide) (1, 0)
    (by decide)
  rw [h.1]
  decide

/-- C9: across one whole `solve` run (forward pass and reconstruction
combined) the trace of states evaluated via the recurrence has no
duplicates — each distinct `(mask, pos)` is evaluated at most once; a
`tsp_dp` call that finds its non-base state in the memo returns the stored
value with the table unchanged and no recurrence evaluation; and a call
that misses evaluates the recurrence, records the state, and inserts its
result before returning. -/
theorem C9_state_evaluated_once (M : List (List Int)) :
    (solveRun (TSPSolver.new M)).2.2.Nodup ∧
    (∀ (n : Nat) (dist : List (List Int)) (f mask pos : Nat) (dp : Memo) (w : Int),
      mask ≠ 2 ^ n - 1 → dpGet dp (mask, pos) = some w →
      tsp_dp n dist (f + 1) mask pos dp = (w, dp, [])) ∧
    (∀ (n : Nat) (dist : List (List Int)) (f mask pos : Nat) (dp : Memo),
      mask ≠ 2 ^ n - 1 → dpGet dp (mask, pos) = none →
      (mask, pos) ∈ keys (tsp_dp n dist (f + 1) mask pos dp).2.1 ∧
      (tsp_dp n dist (f + 1) mask pos dp).2.2.head? = some (mask, pos)) := by
  refine ⟨?_, ?_, ?_⟩
  · by_cases h1 : M.length ≤ 1
    · have heq : solveRun (TSPSolver.new M) = ((0, some [0]), [], []) := by
        rw [solveRun, if_pos (show (TSPSolver.new M).n ≤ 1 from h1)]
        rfl
      rw [heq]
      exact List.nodup_nil
    · have hn1 : ¬ (TSPSolver.new M).n ≤ 1 := h1
      have hu : uncount M.length 1 < M.length := by rw [uncount_one]; omega
      have hspec := tsp_dp_spec M.length M M.length 1 0 [] hu
        (one_lt_two_pow_of_pos (by omega)) (by omega) (GoodMemo_nil _ _)
      rcases hf : tsp_dp M.length M M.length 1 0 [] with ⟨v, d1, e1⟩
      rw [hf] at hspec
      obtain ⟨-, hd1, -, -, hnd1, hfresh1, -⟩ := hspec
      simp only at hd1 hnd1 hfresh1
      have hwalk := reconstruct_go_memo_spec (show 0 < M.length by omega)
        (2 * M.length) 1 0 [0] d1 (one_lt_two_pow_of_pos (by omega))
        testBit_one_zero hd1
      rcases hr : reconstruct_path M.length M d1 with ⟨p, d2, e2⟩
      have hr2 : reconstruct_go M.length M (2 * M.length) 1 0 [0] d1 =
        (p, d2, e2) := hr
      rw [hr2] at hwalk
      obtain ⟨-, -, -, hnd2, hfresh2, -⟩ := hwalk
      simp only at hnd2 hfresh2
      rw [solveRun_eq hn1 hf hr]
      simp only
      refine hnd1.append hnd2 ?_
      intro k hk1 hk2
      exact (hfresh2 k hk2).1 ((hfresh1 k hk1).2.1)
  · intro n dist f mask pos dp w h1 h2
    exact tsp_dp_hit h1 h2
  · intro n dist f mask pos dp h1 h2
    rw [tsp_dp_miss h1 h2]
    constructor
    · rw [keys_cons]
      exact List.mem_cons_self _ _
    · rfl

/-- C9 (witness): the global no-duplicate trace on the concrete 4-city
matrix, and the memo-hit contract at a concrete call. -/
theorem C9_state_evaluated_once_witness :
    (solveRun (TSPSolver.new M4)).2.2.Nodup ∧
    tsp_dp 4 M4 (0 + 1) 3 1 [((3, 1), 70)] = (70, [((3, 1), 70)], []) :=
  ⟨(C9_state_evaluated_once M4).1,
   (C9_state_evaluated_once M4).2.1 4 M4 0 3 1 [((3, 1), 70)] 70
     (by decide) (by decide)⟩

/-- C10: for every matrix with at most one city, `solve` returns cost 0
and the single-city path `[0]`, leaving the memo table empty and running
no DP recurrence (the evaluation trace is empty). -/
theorem C10_trivial_instances (M : List (List Int)) (h : M.length ≤ 1) :
    TSPSolver.solve (TSPSolver.new M) = (0, some [0]) ∧
    solveRun (TSPSolver.new M) = ((0, some [0]), [], []) := by
  have h2 : solveRun (TSPSolver.new M) = ((0, some [0]), [], []) := by
    rw [solveRun, if_pos (show (TSPSolver.new M).n ≤ 1 from h)]
    rfl
  exact ⟨by rw [TSPSolver.solve, h2], h2⟩

/-- C10 (witness): the single-city matrix. -/
theorem C10_trivial_instances_witness :
    TSPSolver.solve (TSPSolver.new [[0]]) = (0, some [0]) ∧
    solveRun (TSPSolver.new [[0]]) = ((0, some [0]), [], []) :=
  C10_trivial_instances [[0]] (by decide)

end TSPDP
